import Mathlib

/-!
Verification of the concurrent cuckoo hash table core specified for this
repository, together with three driver routines present in the source tree
(`xsc_rxq_elts_alloc`, `xsc_rxq_elts_free`, `mlx5_vdpa_task_add`).

The hash table implementation itself is not part of the source snapshot, so
its operations are modelled from the specification text (bucket table,
key-slot store, signature / alternate-bucket XOR relation, bounded cuckoo
displacement search, sequence-lock protocol).  The driver routines are
translated directly from the C sources.
-/

set_option maxHeartbeats 1000000

namespace Spec2Proof

/-! ## Cuckoo hash table: configuration and state

Modelled from the spec: the hash table core (bucket table, key-slot store,
free list, displacement engine) is described in the specification but its
source is not part of this snapshot, so the definitions below follow the
specification text.  Keys and data values are natural numbers; the hash
function, signature derivation and signature hash are pluggable parameters
as the spec requires. -/

/-- Modelled from the spec: table configuration — power-of-two bucket count,
slots per bucket, key-slot capacity, pluggable hash functions, displacement
depth bound, duplicate policy and concurrency mode. -/
structure Cfg where
  bucketBits : Nat
  slots : Nat
  cap : Nat
  hashFn : Nat → Nat
  sigFn : Nat → Nat
  sigHash : Nat → Nat
  depth : Nat
  dupUpdate : Bool
  concurrent : Bool

/-- Number of buckets: a power of two, so XOR keeps indices in range. -/
def Cfg.nb (c : Cfg) : Nat := 2 ^ c.bucketBits

/-- Signature of a key: derived bits of the key's hash. -/
def Cfg.sigOf (c : Cfg) (k : Nat) : Nat := c.sigFn (c.hashFn k)

/-- Primary bucket index: hash modulo bucket count. -/
def Cfg.prim (c : Cfg) (k : Nat) : Nat := c.hashFn k % c.nb

/-- Modelled from the spec: `alt_index = primary_index XOR hash(signature)`,
with the signature hash reduced modulo the (power-of-two) bucket count so the
result stays in range. -/
def Cfg.altIdx (c : Cfg) (b s : Nat) : Nat := b ^^^ (c.sigHash s % c.nb)

/-- Alternate bucket of a key. -/
def Cfg.altB (c : Cfg) (k : Nat) : Nat := c.altIdx (c.prim k) (c.sigOf k)

/-- Modelled from the spec: table state — bucket array of
(signature, key-slot index) slots, separate key-slot store, free list of
unused key-slot indices, and the deferred-free staging area handed to the
reclamation collaborator under concurrent mode. -/
structure Table where
  cfg : Cfg
  buckets : Nat → Nat → Option (Nat × Nat)
  store : Nat → Option (Nat × Nat)
  freeList : List Nat
  deferred : List Nat

/-- Empty table: all buckets and key slots empty, free list holds every
key-slot index. -/
def mkTable (c : Cfg) : Table :=
  { cfg := c
    buckets := fun _ _ => none
    store := fun _ => none
    freeList := List.range c.cap
    deferred := [] }

/-- Point update of the bucket array. -/
def Table.setB (t : Table) (b j : Nat) (v : Option (Nat × Nat)) : Table :=
  { t with buckets := fun b' j' => if b' = b ∧ j' = j then v else t.buckets b' j' }

/-- Point update of the key-slot store. -/
def Table.setS (t : Table) (i : Nat) (v : Option (Nat × Nat)) : Table :=
  { t with store := fun i' => if i' = i then v else t.store i' }

/-! ## Scanning buckets -/

/-- One candidate test for `bucketFind`: slot `j` of bucket `b` hits key `k`
when its stored signature matches `k`'s signature and the referenced key-slot
holds `k` itself (full key comparison — the signature is only a filter). -/
def hitSlot (t : Table) (b k j : Nat) : Option (Nat × Nat) :=
  match t.buckets b j with
  | some si =>
    if si.1 = t.cfg.sigOf k then
      match t.store si.2 with
      | some kd => if kd.1 = k then some (j, si.2) else none
      | none => none
    else none
  | none => none

/-- Scan one bucket for a key: first slot whose signature matches and whose
referenced key-slot stores the key; returns (slot, key-slot index). -/
def bucketFind (t : Table) (b k : Nat) : Option (Nat × Nat) :=
  (List.range t.cfg.slots).findSome? (hitSlot t b k)

/-- Locate a key in either of its two candidate buckets:
(bucket, slot, key-slot index). -/
def keyRef (t : Table) (k : Nat) : Option (Nat × Nat × Nat) :=
  match bucketFind t (t.cfg.prim k) k with
  | some (j, i) => some (t.cfg.prim k, j, i)
  | none =>
    match bucketFind t (t.cfg.altB k) k with
    | some (j, i) => some (t.cfg.altB k, j, i)
    | none => none

/-- Lookup: hash, scan both candidate buckets' signatures, verify key
equality in the key-slot store, return the stored data. -/
def lookup (t : Table) (k : Nat) : Option Nat :=
  match keyRef t k with
  | some (_, _, i) => (t.store i).map (·.2)
  | none => none

/-- First empty slot in a bucket. -/
def emptySlotIn (t : Table) (b : Nat) : Option Nat :=
  (List.range t.cfg.slots).findSome? fun j =>
    match t.buckets b j with
    | none => some j
    | some _ => none

/-- Reference abstraction: the data stored for `k` in the key-slot store
(first occupied slot holding key `k`). -/
def absFind (t : Table) (k : Nat) : Option Nat :=
  (List.range t.cfg.cap).findSome? fun i =>
    match t.store i with
    | some kd => if kd.1 = k then some kd.2 else none
    | none => none

/-! ## Cuckoo displacement engine

Modelled from the spec: a bounded-depth search over buckets reachable by
evicting one entry to its alternate bucket; a found path is a sequence of
(source bucket, slot, destination bucket, destination slot) moves recorded
from the insertion bucket toward the free slot and applied in reverse order
(from the free slot backward). -/

/-- One cuckoo move: the entry in slot `slot` of bucket `src` is transferred
to slot `dstSlot` of bucket `dst` (its alternate bucket). -/
structure Move where
  src : Nat
  slot : Nat
  dst : Nat
  dstSlot : Nat

/-- Apply one move: atomically transfer one slot's (signature, index) pair
from source to destination and mark the source empty.  Fails unless the
source slot is occupied, the destination is the entry's alternate bucket
(computed from the stored signature alone), the destination slot is empty,
and all coordinates are in range. -/
def applyMove (t : Table) (m : Move) : Option Table :=
  match t.buckets m.src m.slot with
  | some si =>
    if m.src < t.cfg.nb ∧ m.slot < t.cfg.slots ∧ m.dstSlot < t.cfg.slots ∧
        m.dst = t.cfg.altIdx m.src si.1 ∧ t.buckets m.dst m.dstSlot = none then
      some ((t.setB m.src m.slot none).setB m.dst m.dstSlot (some si))
    else none
  | none => none

/-- Apply a path of moves in reverse order: the last move of the list (the
one freeing into the empty slot) is applied first, the first move (the one
freeing the insertion bucket) last. -/
def applyMovesRev (t : Table) : List Move → Option Table
  | [] => some t
  | m :: p => (applyMovesRev t p).bind (fun t' => applyMove t' m)

/-- Try each slot of bucket `b` as the eviction candidate of the next move;
`rec` searches onward from the candidate's alternate bucket with one less
unit of fuel. -/
def pathScan (t : Table) (b : Nat) (rec : Nat → Option (List Move × Nat)) :
    List Nat → Option (List Move × Nat)
  | [] => none
  | j :: js =>
    match t.buckets b j with
    | some si =>
      match rec (t.cfg.altIdx b si.1) with
      | some (p, jd) => some (⟨b, j, t.cfg.altIdx b si.1, jd⟩ :: p, j)
      | none => pathScan t b rec js
    | none => pathScan t b rec js

/-- Modelled from the spec: bounded-depth search for a displacement path from
bucket `b`.  Returns the path (in discovered order, insertion bucket first)
together with the slot of `b` that becomes free once the path is applied. -/
def findPathFrom (t : Table) (fuel : Nat) : Nat → Option (List Move × Nat) :=
  Nat.rec (motive := fun _ => Nat → Option (List Move × Nat))
    (fun b => (emptySlotIn t b).map fun j => ([], j))
    (fun f rec b =>
      match emptySlotIn t b with
      | some j => some ([], j)
      | none => pathScan t b rec (List.range t.cfg.slots))
    fuel

/-- A free slot is reachable from bucket `b` within `fuel` evictions:
either `b` has an empty slot, or some entry of `b` can be evicted to its
alternate bucket from which a free slot is reachable one step sooner. -/
def reachesFree (t : Table) (fuel : Nat) : Nat → Bool :=
  Nat.rec (motive := fun _ => Nat → Bool)
    (fun b => (emptySlotIn t b).isSome)
    (fun f rec b =>
      (emptySlotIn t b).isSome ||
        (List.range t.cfg.slots).any fun j =>
          match t.buckets b j with
          | some si => rec (t.cfg.altIdx b si.1)
          | none => false)
    fuel

/-! ## Public operations -/

/-- Operation results: successful slot index, or the spec's error taxonomy. -/
inductive Res where
  | ok (i : Nat)
  | dup
  | full
  | notFound
deriving DecidableEq, Repr

/-- Write a freshly allocated key-slot and publish its signature into an
empty bucket slot. -/
def place (t : Table) (b j ni k d : Nat) (rest : List Nat) : Table :=
  { (t.setB b j (some (t.cfg.sigOf k, ni))).setS ni (some (k, d)) with freeList := rest }

/-- Insert: duplicate check in both candidate buckets (per the configured
duplicate policy), free-slot allocation from the free list, direct placement
into a free candidate-bucket slot, otherwise displacement search from either
candidate bucket; table-full when no free slot is reachable within the depth
bound. -/
def insert (t : Table) (k d : Nat) : Table × Res :=
  let c := t.cfg
  match keyRef t k with
  | some (_, _, i) =>
    if c.dupUpdate then (t.setS i (some (k, d)), .ok i) else (t, .dup)
  | none =>
    match t.freeList with
    | [] => (t, .full)
    | ni :: rest =>
      match emptySlotIn t (c.prim k) with
      | some j => (place t (c.prim k) j ni k d rest, .ok ni)
      | none =>
        match emptySlotIn t (c.altB k) with
        | some j => (place t (c.altB k) j ni k d rest, .ok ni)
        | none =>
          match findPathFrom t c.depth (c.prim k) with
          | some (p, jf) =>
            match applyMovesRev t p with
            | some t1 =>
              if t1.buckets (c.prim k) jf = none ∧ jf < c.slots then
                (place t1 (c.prim k) jf ni k d rest, .ok ni)
              else (t, .full)
            | none => (t, .full)
          | none =>
            match findPathFrom t c.depth (c.altB k) with
            | some (p, jf) =>
              match applyMovesRev t p with
              | some t1 =>
                if t1.buckets (c.altB k) jf = none ∧ jf < c.slots then
                  (place t1 (c.altB k) jf ni k d rest, .ok ni)
                else (t, .full)
              | none => (t, .full)
            | none => (t, .full)

/-- Delete: locate the key, clear its bucket slot and key-slot; the freed
key-slot index goes to the deferred-free staging area under concurrent mode
(handed to the reclamation collaborator) and straight back to the free-list
tail otherwise. -/
def delete (t : Table) (k : Nat) : Table × Res :=
  match keyRef t k with
  | some (b, j, i) =>
    let t' := (t.setB b j none).setS i none
    if t.cfg.concurrent then
      ({ t' with deferred := t'.deferred ++ [i] }, .ok i)
    else
      ({ t' with freeList := t'.freeList ++ [i] }, .ok i)
  | none => (t, .notFound)

/-- Reclamation: the external collaborator confirms no reader holds a
reference and returns the deferred indices to the free list. -/
def reclaim (t : Table) : Table :=
  { t with freeList := t.freeList ++ t.deferred, deferred := [] }

/-! ## Operation sequences -/

/-- A sequential workload: inserts and deletes. -/
inductive Op where
  | ins (k d : Nat)
  | del (k : Nat)
deriving DecidableEq, Repr

/-- Run one operation. -/
def step (t : Table) : Op → Table × Res
  | .ins k d => insert t k d
  | .del k => delete t k

/-- Run a sequence of operations, logging each result. -/
def runOps (t : Table) : List Op → Table × List Res
  | [] => (t, [])
  | o :: os =>
    let (t', r) := step t o
    let (t'', rs) := runOps t' os
    (t'', r :: rs)

/-- Reference semantics of one logged operation on an abstract key-value map:
a successful insert binds the key to the inserted data, a successful delete
removes it, failed operations change nothing. -/
def refApply (m : Nat → Option Nat) : Op × Res → Nat → Option Nat
  | (.ins k d, .ok _) => fun k' => if k' = k then some d else m k'
  | (.del k, .ok _) => fun k' => if k' = k then none else m k'
  | _ => m

/-- Reference semantics of a logged run. -/
def refRun (m : Nat → Option Nat) : List (Op × Res) → Nat → Option Nat
  | [] => m
  | lr :: lrs => refRun (refApply m lr) lrs

/-- The two candidate buckets of a key. -/
def Cand (c : Cfg) (k b : Nat) : Prop := b = c.prim k ∨ b = c.altB k

/-! ## The table invariant -/

/-- Slot `j` of bucket `b` is a lookup hit for key `k` referencing key-slot
`i`: matching stored signature and full-key match in the store. -/
def Hits (t : Table) (b k j i : Nat) : Prop :=
  t.buckets b j = some (t.cfg.sigOf k, i) ∧ ∃ d, t.store i = some (k, d)

/-- The cuckoo table invariant (modelled from the spec's data-model
invariants). -/
structure Inv (t : Table) : Prop where
  /-- Every occupied bucket slot, in range, references an occupied key-slot;
  the stored signature is the signature of the stored key and the bucket is
  one of the key's two candidate buckets. -/
  refOk : ∀ b < t.cfg.nb, ∀ j < t.cfg.slots, ∀ s i, t.buckets b j = some (s, i) →
    i < t.cfg.cap ∧ ∃ k d, t.store i = some (k, d) ∧ s = t.cfg.sigOf k ∧ Cand t.cfg k b
  /-- No two bucket slots reference the same key-slot. -/
  refInj : ∀ b1 < t.cfg.nb, ∀ j1 < t.cfg.slots, ∀ b2 < t.cfg.nb, ∀ j2 < t.cfg.slots,
    ∀ s1 s2 i, t.buckets b1 j1 = some (s1, i) → t.buckets b2 j2 = some (s2, i) →
    b1 = b2 ∧ j1 = j2
  /-- A key is live in at most one key-slot. -/
  keyUniq : ∀ i1 < t.cfg.cap, ∀ i2 < t.cfg.cap, ∀ k d1 d2,
    t.store i1 = some (k, d1) → t.store i2 = some (k, d2) → i1 = i2
  /-- Every live key-slot is referenced, with the key's signature, from one of
  the key's two candidate buckets. -/
  liveRef : ∀ i < t.cfg.cap, ∀ k d, t.store i = some (k, d) →
    ∃ b j, j < t.cfg.slots ∧ Cand t.cfg k b ∧ t.buckets b j = some (t.cfg.sigOf k, i)
  /-- Free-list indices are in range and unoccupied. -/
  freeOk : ∀ i ∈ t.freeList, i < t.cfg.cap ∧ t.store i = none
  /-- Deferred-free indices are in range and unoccupied. -/
  defOk : ∀ i ∈ t.deferred, i < t.cfg.cap ∧ t.store i = none
  /-- No index appears twice among the free and deferred lists. -/
  nodupFD : (t.freeList ++ t.deferred).Nodup
  /-- Out-of-range bucket coordinates are empty. -/
  highB : ∀ b j, t.cfg.nb ≤ b ∨ t.cfg.slots ≤ j → t.buckets b j = none
  /-- Out-of-range key-slots are empty. -/
  highS : ∀ i, t.cfg.cap ≤ i → t.store i = none

/-! ## Intermediate reachability during displacement (C3) -/

/-- Every live key is reachable from exactly one of its two candidate
buckets: there is exactly one in-range (bucket, slot) position among the
key's candidate buckets holding its signature and key-slot index. -/
def reachExactlyOne (t : Table) : Prop :=
  ∀ i < t.cfg.cap, ∀ k d, t.store i = some (k, d) →
    ∃! bj : Nat × Nat, bj.2 < t.cfg.slots ∧ Cand t.cfg k bj.1 ∧
      t.buckets bj.1 bj.2 = some (t.cfg.sigOf k, i)

/-- Does a result report success? -/
def isOk : Res → Bool
  | .ok _ => true
  | _ => false

/-! ## Sequence-lock protocol (C6)

Modelled from the spec: per bucket-pair version counter following a
sequence-lock discipline (odd = modification in progress), a bucket-pair
writer lock, writers that acquire / bump odd / mutate / bump even / release,
and readers that snapshot the version, scan, and re-check the version —
committing only when it is unchanged and even, otherwise discarding and
retrying. -/

/-- Writer thread phases: idle, holding the pair lock, inside the critical
section (version bumped odd), or finished mutating (version bumped even,
lock still held). -/
inductive WPhase where
  | idle
  | holding (p : Nat)
  | inCrit (p : Nat)
  | finished (p : Nat)
deriving DecidableEq, Repr

/-- Reader thread phases: idle, holding a version snapshot, holding a
scanned value, or committed. -/
inductive RPhase where
  | ridle
  | rsnap (p v1 : Nat)
  | rread (p v1 c : Nat)
  | rdone (p c : Nat)
deriving DecidableEq, Repr

/-- Sequence-lock protocol state: per-pair version counters, lock owners and
abstract bucket-pair contents, plus per-thread writer and reader phases. -/
structure SL where
  ver : Nat → Nat
  owner : Nat → Option Nat
  content : Nat → Nat
  wr : Nat → WPhase
  rd : Nat → RPhase

/-- Initial protocol state with contents `c0`. -/
def SLInit (c0 : Nat → Nat) : SL :=
  { ver := fun _ => 0
    owner := fun _ => none
    content := c0
    wr := fun _ => .idle
    rd := fun _ => .ridle }

/-- One protocol step (any thread). -/
inductive SLStep : SL → SL → Prop where
  | acquire (s : SL) (w p : Nat) :
      s.wr w = .idle → s.owner p = none →
      SLStep s { s with
        owner := fun p' => if p' = p then some w else s.owner p'
        wr := fun w' => if w' = w then .holding p else s.wr w' }
  | beginW (s : SL) (w p : Nat) :
      s.wr w = .holding p →
      SLStep s { s with
        ver := fun p' => if p' = p then s.ver p + 1 else s.ver p'
        wr := fun w' => if w' = w then .inCrit p else s.wr w' }
  | mutate (s : SL) (w p c' : Nat) :
      s.wr w = .inCrit p →
      SLStep s { s with
        content := fun p' => if p' = p then c' else s.content p' }
  | endW (s : SL) (w p : Nat) :
      s.wr w = .inCrit p →
      SLStep s { s with
        ver := fun p' => if p' = p then s.ver p + 1 else s.ver p'
        wr := fun w' => if w' = w then .finished p else s.wr w' }
  | release (s : SL) (w p : Nat) :
      s.wr w = .finished p →
      SLStep s { s with
        owner := fun p' => if p' = p then none else s.owner p'
        wr := fun w' => if w' = w then .idle else s.wr w' }
  | rbegin (s : SL) (r p : Nat) :
      s.rd r = .ridle →
      SLStep s { s with
        rd := fun r' => if r' = r then .rsnap p (s.ver p) else s.rd r' }
  | rscan (s : SL) (r p v1 : Nat) :
      s.rd r = .rsnap p v1 →
      SLStep s { s with
        rd := fun r' => if r' = r then .rread p v1 (s.content p) else s.rd r' }
  | rcommit (s : SL) (r p v1 c : Nat) :
      s.rd r = .rread p v1 c → s.ver p = v1 → v1 % 2 = 0 →
      SLStep s { s with
        rd := fun r' => if r' = r then .rdone p c else s.rd r' }
  | rdiscard (s : SL) (r p v1 c : Nat) :
      s.rd r = .rread p v1 c → ¬(s.ver p = v1 ∧ v1 % 2 = 0) →
      SLStep s { s with
        rd := fun r' => if r' = r then .ridle else s.rd r' }

/-- A writer thread is active on bucket pair `p` (holds its lock for an
insert/delete/displacement). -/
def writerActive (s : SL) (w p : Nat) : Prop :=
  s.wr w = .holding p ∨ s.wr w = .inCrit p ∨ s.wr w = .finished p

/-- Protocol invariant. -/
structure SLInv (s : SL) : Prop where
  ownerOf : ∀ w p, writerActive s w p → s.owner p = some w
  critOdd : ∀ w p, s.wr w = .inCrit p → s.ver p % 2 = 1
  stableEven : ∀ p, (∀ w, s.wr w ≠ .inCrit p) → s.ver p % 2 = 0
  snapBound : ∀ r p v1, s.rd r = .rsnap p v1 → v1 ≤ s.ver p
  readBound : ∀ r p v1 c, s.rd r = .rread p v1 c → v1 ≤ s.ver p
  readStable : ∀ r p v1 c, s.rd r = .rread p v1 c → s.ver p = v1 → v1 % 2 = 0 →
    c = s.content p

/-- Reachable protocol states. -/
def SLReach (c0 : Nat → Nat) (s : SL) : Prop :=
  Relation.ReflTransGen SLStep (SLInit c0) s

/-- Witness trace for C6: a reader snapshots pair 1 (version 0), scans its
contents, while a writer acquires the lock of pair 0. -/
def slW0 : SL := SLInit fun _ => 7

/-- After the reader's version snapshot. -/
def slW1 : SL :=
  { slW0 with rd := fun r' => if r' = 0 then RPhase.rsnap 1 (slW0.ver 1) else slW0.rd r' }

/-- After the reader's scan. -/
def slW2 : SL :=
  { slW1 with rd := fun r' => if r' = 0 then RPhase.rread 1 0 (slW1.content 1) else slW1.rd r' }

/-- After a writer acquires the pair-0 lock. -/
def slW3 : SL :=
  { slW2 with
    owner := fun p' => if p' = 0 then some 0 else slW2.owner p'
    wr := fun w' => if w' = 0 then WPhase.holding 0 else slW2.wr w' }

/-! ## Concrete witness fixtures -/

/-- One bucket of one slot, two key slots: the smallest table that can fill. -/
def cfgOne : Cfg := ⟨0, 1, 2, id, id, id, 3, true, false⟩

/-- A one-slot table already holding key 0. -/
def tFull : Table := (runOps (mkTable cfgOne) [Op.ins 0 5]).1

/-- Four buckets of one slot; `sigHash s = s / 4` so keys 5 and 1 share
primary bucket 1 while key 5's alternate bucket is 0. -/
def cfgTwo : Cfg := ⟨2, 1, 8, id, id, fun s => s / 4, 3, false, false⟩

/-- Key 5 placed in bucket 1 — the table about to displace it. -/
def tDisp : Table := (runOps (mkTable cfgTwo) [Op.ins 5 50]).1

/-- The displacement move of key 5 from bucket 1 to its alternate bucket 0. -/
def moveW : Move := ⟨1, 0, 0, 0⟩

/-- The table after the displacement move. -/
def tDispAfter : Table := (tDisp.setB 1 0 none).setB 0 0 (some (5, 0))

/-- Two buckets of one slot in concurrent mode. -/
def cfgCon : Cfg := ⟨1, 1, 4, id, id, id, 2, true, true⟩

/-- Concurrent-mode table holding key 0 (at key-slot 0). -/
def tCon : Table := (runOps (mkTable cfgCon) [Op.ins 0 9]).1

/-- Two buckets of one slot with duplicate-update policy. -/
def cfgUpd : Cfg := ⟨1, 1, 4, id, id, id, 2, true, false⟩

/-- Duplicate-update table holding key 1 with data 11. -/
def tUpd : Table := (runOps (mkTable cfgUpd) [Op.ins 1 11]).1

/-! ## Driver model: `xsc_rxq_elts_alloc` / `xsc_rxq_elts_free`
(drivers/net/xsc/xsc_rx.c)

An mbuf is modelled by the fields the two routines touch plus an identity
tag; the mempool is a list from which `rte_pktmbuf_alloc` pops the head
(allocation fails when it is empty); `rte_pktmbuf_free_seg` appends to a
`freed` log.  The `elts` array has `wqe_s` entries, modelled as the list
length. -/

structure Mbuf where
  port : Nat
  nbSegs : Nat
  dataOff : Nat
  dataLen : Nat
  pktLen : Nat
  tag : Nat
deriving DecidableEq, Repr

/-- State touched by `xsc_rxq_elts_alloc`: the mempool (with its data-room
size), the queue's port id, the `elts` array and the log of freed mbufs. -/
structure RxqState where
  pool : List Mbuf
  dataRoom : Nat
  portId : Nat
  elts : List (Option Mbuf)
  freed : List Mbuf
deriving DecidableEq, Repr

/-- Errno value `ENOMEM` as used by the error paths. -/
def ENOMEM : Int := 12

/-- In-place array write (`(*elts)[i] = v`). -/
def setNth {α : Type} : List α → Nat → α → List α
  | [], _, _ => []
  | _ :: xs, 0, v => v :: xs
  | x :: xs, n + 1, v => x :: setNth xs n v

/-- Field writes `mbuf->port = ...; mbuf->nb_segs = 1; data_len = pkt_len =
data_room_size - data_off` — the field writes of the allocation loop. -/
def setFields (room pid : Nat) (m : Mbuf) : Mbuf :=
  { m with
    port := pid
    nbSegs := 1
    dataLen := room - m.dataOff
    pktLen := room - m.dataOff }

/-- The error path of `xsc_rxq_elts_alloc`: free the first `cnt` entries
starting at index `i` (freeing non-NULL ones) and set them to NULL. -/
def errFree : Nat → Nat → RxqState → RxqState
  | 0, _, st => st
  | cnt + 1, i, st =>
    let st' :=
      match st.elts.get? i with
      | some (some m) =>
        { st with freed := st.freed ++ [m], elts := setNth st.elts i none }
      | some none => { st with elts := setNth st.elts i none }
      | none => st
    errFree cnt (i + 1) st'

/-- The allocation loop of `xsc_rxq_elts_alloc`: fill entries `i`,
`i + 1`, ... (`cnt` of them); on allocation failure, free and clear all
entries written so far — those at indices below `i` — and fail with
`-ENOMEM`. -/
def allocLoop : Nat → Nat → RxqState → RxqState × Int
  | 0, _, st => (st, 0)
  | cnt + 1, i, st =>
    match st.pool with
    | [] => (errFree i 0 st, -ENOMEM)
    | m :: rest =>
      allocLoop cnt (i + 1)
        { st with
          pool := rest
          elts := setNth st.elts i (some (setFields st.dataRoom st.portId m)) }

/-- Model of `xsc_rxq_elts_alloc`: allocate one mbuf per WQE slot, initialise it and
store it in `elts`; on failure free everything allocated so far. -/
def xsc_rxq_elts_alloc (st : RxqState) : RxqState × Int :=
  allocLoop st.elts.length 0 st

/-- State touched by `xsc_rxq_elts_free`: the (possibly NULL) `elts` array
and the log of freed mbufs. -/
structure RxqFreeState where
  elts : Option (List (Option Mbuf))
  freed : List Mbuf
deriving DecidableEq, Repr

/-- The loop of `xsc_rxq_elts_free`: free every non-NULL entry and set every
entry to NULL; returns the cleared array and the mbufs freed (in order). -/
def freeLoop : List (Option Mbuf) → List (Option Mbuf) × List Mbuf
  | [] => ([], [])
  | e :: es =>
    let r := freeLoop es
    match e with
    | some m => (none :: r.1, m :: r.2)
    | none => (none :: r.1, r.2)

/-- Model of `xsc_rxq_elts_free`: a NULL `elts` pointer returns immediately;
otherwise every entry is freed (if non-NULL) and set to NULL. -/
def xsc_rxq_elts_free (st : RxqFreeState) : RxqFreeState :=
  match st.elts with
  | none => st
  | some l => { elts := some (freeLoop l).1, freed := st.freed ++ (freeLoop l).2 }

/-- A populated `elts` entry as the claim describes it: non-NULL, port set to
the queue's port id, `nb_segs` 1, and `data_len` the pool's data room minus
the mbuf's own data offset. -/
def mbufOk (room pid : Nat) : Option Mbuf → Bool
  | some m => m.port == pid && m.nbSegs == 1 && m.dataLen == room - m.dataOff
  | none => false

/-- C8 as claimed: either success with every entry freshly populated, or
`-ENOMEM` with every entry of `elts` NULL and every allocated mbuf freed. -/
def rxqAllocClaim (st : RxqState) : Prop :=
  ((xsc_rxq_elts_alloc st).2 = 0 ∧
    ∀ e ∈ (xsc_rxq_elts_alloc st).1.elts, mbufOk st.dataRoom st.portId e = true) ∨
  ((xsc_rxq_elts_alloc st).2 = -ENOMEM ∧
    (∀ e ∈ (xsc_rxq_elts_alloc st).1.elts, e = none) ∧
    (xsc_rxq_elts_alloc st).1.freed =
      st.freed ++ st.pool.map (setFields st.dataRoom st.portId))

/-- Counterexample state for C8: one-entry `elts` holding a stale non-NULL
pointer, empty mempool — the first allocation fails at index 0 and the error
loop clears nothing, leaving the stale entry in place. -/
def rxCex : RxqState := ⟨[], 100, 1, [some ⟨9, 9, 9, 9, 9, 9⟩], []⟩

/-- Successful-allocation state for C8's witness: one slot, two pooled
mbufs. -/
def rxOk : RxqState := ⟨[⟨0, 0, 10, 0, 0, 1⟩, ⟨0, 0, 20, 0, 0, 2⟩], 100, 3, [none], []⟩

/-! ## Driver model: `mlx5_vdpa_task_add` (vdpa/mlx5)

The worker ring is modelled by its free space and the list of enqueued
tasks; `rte_ring_enqueue_bulk_elem_start` reserves exactly `n` elements when
the ring has room for all of them and 0 otherwise, and
`rte_ring_enqueue_elem_finish` commits that many.  A task carries the `priv`
pointer the function sets and its `remaining_cnt` pointer, which the
function does not initialise (comment "To be added later"), so the caller
supplies the `remaining_cnt` values; counters are a map from counter
identity to value. -/

/-- Upper bound on the stack task array (`MLX5_VDPA_TASKS_PER_DEV` in
`mlx5_vdpa.h`, not part of this snapshot). -/
def MLX5_VDPA_TASKS_PER_DEV : Nat := 32

structure VdpaTask where
  priv : Nat
  remainingCnt : Option Nat
deriving DecidableEq, Repr

structure VdpaRing where
  freeSpace : Nat
  items : List VdpaTask
deriving DecidableEq, Repr

structure VdpaState where
  ring : VdpaRing
  counters : Nat → Nat

/-- Model of `rte_ring_enqueue_bulk_elem_start`: all-or-nothing reservation. -/
def ringEnqueueBulkStart (r : VdpaRing) (n : Nat) : Nat :=
  if n ≤ r.freeSpace then n else 0

/-- Model of `rte_ring_enqueue_elem_finish`: commit `n` elements. -/
def ringEnqueueFinish (r : VdpaRing) (tasks : List VdpaTask) (n : Nat) : VdpaRing :=
  { freeSpace := r.freeSpace - n, items := r.items ++ tasks.take n }

/-- Model of `mlx5_vdpa_c_thrd_ring_enqueue_bulk`: commit `n` elements only when the
start call reserved exactly `n`, otherwise finish with 0. -/
def mlx5_vdpa_c_thrd_ring_enqueue_bulk (r : VdpaRing) (tasks : List VdpaTask)
    (n : Nat) : VdpaRing × Nat :=
  let m := ringEnqueueBulkStart r n
  let n' := if m = n then n else 0
  (ringEnqueueFinish r tasks n', n')

/-- The counter-increment loop: one `__atomic_fetch_add` per task with a
non-NULL `remaining_cnt`. -/
def bumpAll : List VdpaTask → (Nat → Nat) → Nat → Nat
  | [], cnt => cnt
  | t :: ts, cnt =>
    match t.remainingCnt with
    | some c => bumpAll ts fun c' => if c' = c then cnt c' + 1 else cnt c'
    | none => bumpAll ts cnt

/-- Model of `mlx5_vdpa_task_add`: build `num` tasks with `priv` set, bulk-enqueue
them, and on success increment each non-NULL `remaining_cnt` once; a
0-result from the bulk enqueue is treated as failure and returns -1. -/
def mlx5_vdpa_task_add (st : VdpaState) (priv : Nat) (rcnts : List (Option Nat)) :
    VdpaState × Int :=
  let tasks := rcnts.map fun rc => VdpaTask.mk priv rc
  let er := mlx5_vdpa_c_thrd_ring_enqueue_bulk st.ring tasks rcnts.length
  if er.2 = 0 then ({ st with ring := er.1 }, -1)
  else ({ ring := er.1, counters := bumpAll tasks st.counters }, 0)

/-- C10 as claimed: for `num ≤ MLX5_VDPA_TASKS_PER_DEV` the call either
enqueues exactly the `num` tasks, increments each non-NULL `remaining_cnt`
once and returns 0, or — when the ring cannot accept all `num` elements —
enqueues nothing, increments nothing and returns -1. -/
def taskAddClaim (st : VdpaState) (priv : Nat) (rcnts : List (Option Nat)) : Prop :=
  ((mlx5_vdpa_task_add st priv rcnts).2 = 0 ∧
    (mlx5_vdpa_task_add st priv rcnts).1.ring.items =
      st.ring.items ++ rcnts.map (fun rc => VdpaTask.mk priv rc) ∧
    ∀ c, (mlx5_vdpa_task_add st priv rcnts).1.counters c =
      st.counters c + (rcnts.filterMap id).count c) ∨
  (st.ring.freeSpace < rcnts.length ∧
    (mlx5_vdpa_task_add st priv rcnts).2 = -1 ∧
    (mlx5_vdpa_task_add st priv rcnts).1.ring.items = st.ring.items ∧
    ∀ c, (mlx5_vdpa_task_add st priv rcnts).1.counters c = st.counters c)

/-- Counterexample state for C10: a ring with plenty of room. -/
def vdpaCex : VdpaState := ⟨⟨4, []⟩, fun _ => 0⟩

/-- Witness state for C10 (amended). -/
def vdpaOk : VdpaState := ⟨⟨4, []⟩, fun _ => 0⟩

/-! ## Generic list-scan lemmas (used for all bucket scans) -/

theorem findSome?_eq_none_iff {α β : Type} (f : α → Option β) (l : List α) :
    l.findSome? f = none ↔ ∀ a ∈ l, f a = none := by
  induction l with
  | nil => simp [List.findSome?]
  | cons x xs ih =>
    simp only [List.findSome?]
    cases hx : f x with
    | some b =>
      simp only
      constructor
      · intro h; cases h
      · intro h
        exact absurd (h x (List.mem_cons_self x xs)) (by simp [hx])
    | none =>
      simp only
      rw [ih]
      constructor
      · intro h a ha
        rcases List.mem_cons.1 ha with rfl | ha'
        · exact hx
        · exact h a ha'
      · intro h a ha
        exact h a (List.mem_cons_of_mem x ha)

theorem exists_of_findSome?_eq_some {α β : Type} {f : α → Option β} {l : List α} {b : β}
    (h : l.findSome? f = some b) : ∃ a ∈ l, f a = some b := by
  induction l with
  | nil => simp [List.findSome?] at h
  | cons x xs ih =>
    simp only [List.findSome?] at h
    cases hx : f x with
    | some b' =>
      rw [hx] at h
      simp only at h
      exact ⟨x, List.mem_cons_self x xs, by rw [hx, h]⟩
    | none =>
      rw [hx] at h
      simp only at h
      obtain ⟨a, ha, hfa⟩ := ih h
      exact ⟨a, List.mem_cons_of_mem x ha, hfa⟩

theorem setB_same (t : Table) (b j : Nat) (v : Option (Nat × Nat)) :
    (t.setB b j v).buckets b j = v := by simp [Table.setB]

theorem setB_other (t : Table) (b j : Nat) (v : Option (Nat × Nat)) {b' j' : Nat}
    (h : ¬(b' = b ∧ j' = j)) : (t.setB b j v).buckets b' j' = t.buckets b' j' := by
  simp [Table.setB, h]

theorem setS_same (t : Table) (i : Nat) (v : Option (Nat × Nat)) :
    (t.setS i v).store i = v := by simp [Table.setS]

theorem setS_other (t : Table) (i : Nat) (v : Option (Nat × Nat)) {i' : Nat}
    (h : i' ≠ i) : (t.setS i v).store i' = t.store i' := by
  simp [Table.setS, h]

theorem findPathFrom_zero (t : Table) (b : Nat) :
    findPathFrom t 0 b = (emptySlotIn t b).map fun j => ([], j) := rfl

theorem findPathFrom_succ (t : Table) (f b : Nat) :
    findPathFrom t (f + 1) b =
      match emptySlotIn t b with
      | some j => some ([], j)
      | none => pathScan t b (findPathFrom t f) (List.range t.cfg.slots) := rfl

theorem reachesFree_zero (t : Table) (b : Nat) :
    reachesFree t 0 b = (emptySlotIn t b).isSome := rfl

theorem reachesFree_succ (t : Table) (f b : Nat) :
    reachesFree t (f + 1) b =
      ((emptySlotIn t b).isSome ||
        (List.range t.cfg.slots).any fun j =>
          match t.buckets b j with
          | some si => reachesFree t f (t.cfg.altIdx b si.1)
          | none => false) := rfl

/-! ## Index arithmetic -/

theorem nb_pos (c : Cfg) : 0 < c.nb := Nat.pos_pow_of_pos _ (by decide)

theorem prim_lt (c : Cfg) (k : Nat) : c.prim k < c.nb :=
  Nat.mod_lt _ (nb_pos c)

theorem altIdx_lt (c : Cfg) {b : Nat} (s : Nat) (hb : b < c.nb) :
    c.altIdx b s < c.nb := by
  have h2 : c.sigHash s % c.nb < c.nb := Nat.mod_lt _ (nb_pos c)
  exact Nat.xor_lt_two_pow (n := c.bucketBits) hb h2

theorem altIdx_invol (c : Cfg) (b s : Nat) :
    c.altIdx (c.altIdx b s) s = b := by
  simp [Cfg.altIdx, Nat.xor_assoc]

theorem altB_lt (c : Cfg) (k : Nat) : c.altB k < c.nb :=
  altIdx_lt c _ (prim_lt c k)

theorem altIdx_altB (c : Cfg) (k : Nat) :
    c.altIdx (c.altB k) (c.sigOf k) = c.prim k :=
  altIdx_invol c _ _

theorem cand_lt {c : Cfg} {k b : Nat} (h : Cand c k b) : b < c.nb := by
  rcases h with rfl | rfl
  · exact prim_lt c k
  · exact altB_lt c k

theorem cand_altIdx {c : Cfg} {k b : Nat} (h : Cand c k b) :
    Cand c k (c.altIdx b (c.sigOf k)) := by
  rcases h with rfl | rfl
  · exact Or.inr rfl
  · exact Or.inl (altIdx_altB c k)

theorem inv_mkTable (c : Cfg) : Inv (mkTable c) := by
  refine ⟨?_, ?_, ?_, ?_, ?_, ?_, ?_, ?_, ?_⟩ <;>
    simp [mkTable, List.mem_range, List.nodup_range]

/-! ## Scan lemmas -/

theorem hitSlot_eq_some {t : Table} {b k j j' i : Nat}
    (h : hitSlot t b k j = some (j', i)) : j' = j ∧ Hits t b k j i := by
  unfold hitSlot at h
  cases hb : t.buckets b j with
  | none => rw [hb] at h; cases h
  | some si =>
    rw [hb] at h
    simp only at h
    by_cases hs : si.1 = t.cfg.sigOf k
    · rw [if_pos hs] at h
      cases hst : t.store si.2 with
      | none => rw [hst] at h; cases h
      | some kd =>
        rw [hst] at h
        simp only at h
        by_cases hk : kd.1 = k
        · rw [if_pos hk] at h
          cases h
          refine ⟨rfl, ?_, kd.2, ?_⟩
          · rw [hb, ← hs]
          · rw [hst, ← hk]
        · rw [if_neg hk] at h; cases h
    · rw [if_neg hs] at h; cases h

theorem hitSlot_eq_some_of {t : Table} {b k j i : Nat} (h : Hits t b k j i) :
    hitSlot t b k j = some (j, i) := by
  obtain ⟨hb, d, hst⟩ := h
  unfold hitSlot
  rw [hb]
  simp [hst]

theorem bucketFind_eq_some {t : Table} {b k j i : Nat}
    (h : bucketFind t b k = some (j, i)) : j < t.cfg.slots ∧ Hits t b k j i := by
  obtain ⟨j0, hj0, hhit⟩ := exists_of_findSome?_eq_some h
  obtain ⟨rfl, hh⟩ := hitSlot_eq_some hhit
  exact ⟨List.mem_range.1 hj0, hh⟩

theorem bucketFind_ne_none {t : Table} {b k j i : Nat} (hj : j < t.cfg.slots)
    (h : Hits t b k j i) : bucketFind t b k ≠ none := by
  intro hn
  have := (findSome?_eq_none_iff _ _).1 hn j (List.mem_range.2 hj)
  rw [hitSlot_eq_some_of h] at this
  cases this

theorem bucketFind_eq_none {t : Table} {b k : Nat} (h : bucketFind t b k = none) :
    ∀ j < t.cfg.slots, ∀ i, ¬ Hits t b k j i := by
  intro j hj i hh
  exact bucketFind_ne_none hj hh h

theorem keyRef_eq_some {t : Table} {k b j i : Nat}
    (h : keyRef t k = some (b, j, i)) :
    Cand t.cfg k b ∧ j < t.cfg.slots ∧ Hits t b k j i := by
  unfold keyRef at h
  cases h1 : bucketFind t (t.cfg.prim k) k with
  | some ji =>
    rw [h1] at h
    cases h
    obtain ⟨hj, hh⟩ := bucketFind_eq_some h1
    exact ⟨Or.inl rfl, hj, hh⟩
  | none =>
    rw [h1] at h
    cases h2 : bucketFind t (t.cfg.altB k) k with
    | some ji =>
      rw [h2] at h
      cases h
      obtain ⟨hj, hh⟩ := bucketFind_eq_some h2
      exact ⟨Or.inr rfl, hj, hh⟩
    | none => rw [h2] at h; cases h

theorem keyRef_eq_none {t : Table} {k : Nat} (h : keyRef t k = none) :
    ∀ b, Cand t.cfg k b → ∀ j < t.cfg.slots, ∀ i, ¬ Hits t b k j i := by
  unfold keyRef at h
  cases h1 : bucketFind t (t.cfg.prim k) k with
  | some ji => rw [h1] at h; cases h
  | none =>
    rw [h1] at h
    cases h2 : bucketFind t (t.cfg.altB k) k with
    | some ji => rw [h2] at h; cases h
    | none =>
      intro b hb j hj i hh
      rcases hb with rfl | rfl
      · exact bucketFind_eq_none h1 j hj i hh
      · exact bucketFind_eq_none h2 j hj i hh

theorem emptySlotIn_eq_some {t : Table} {b j : Nat} (h : emptySlotIn t b = some j) :
    j < t.cfg.slots ∧ t.buckets b j = none := by
  obtain ⟨j0, hj0, hf⟩ := exists_of_findSome?_eq_some h
  cases hb : t.buckets b j0 with
  | none =>
    rw [hb] at hf
    cases hf
    exact ⟨List.mem_range.1 hj0, hb⟩
  | some si => rw [hb] at hf; cases hf

theorem emptySlotIn_eq_none {t : Table} {b : Nat} (h : emptySlotIn t b = none) :
    ∀ j < t.cfg.slots, t.buckets b j ≠ none := by
  intro j hj hb
  have := (findSome?_eq_none_iff _ _).1 h j (List.mem_range.2 hj)
  rw [hb] at this
  cases this

/-! ## `absFind` lemmas -/

theorem absFind_eq_some {t : Table} {k d : Nat} (h : absFind t k = some d) :
    ∃ i < t.cfg.cap, t.store i = some (k, d) := by
  obtain ⟨i, hi, hf⟩ := exists_of_findSome?_eq_some h
  cases hst : t.store i with
  | none => rw [hst] at hf; cases hf
  | some kd =>
    rw [hst] at hf
    simp only at hf
    by_cases hk : kd.1 = k
    · rw [if_pos hk] at hf
      cases hf
      exact ⟨i, List.mem_range.1 hi, by rw [hst, ← hk]⟩
    · rw [if_neg hk] at hf; cases hf

theorem absFind_eq_none {t : Table} {k : Nat} (h : absFind t k = none) :
    ∀ i < t.cfg.cap, ∀ d, t.store i ≠ some (k, d) := by
  intro i hi d hst
  have := (findSome?_eq_none_iff _ _).1 h i (List.mem_range.2 hi)
  rw [hst] at this
  simp at this

theorem absFind_eq_some_of (ht : Inv t) {k i d : Nat} (hi : i < t.cfg.cap)
    (hst : t.store i = some (k, d)) : absFind t k = some d := by
  cases ha : absFind t k with
  | none => exact absurd hst (absFind_eq_none ha i hi d)
  | some d' =>
    obtain ⟨i', hi', hst'⟩ := absFind_eq_some ha
    have := ht.keyUniq i hi i' hi' k d d' hst hst'
    subst this
    rw [hst] at hst'
    cases hst'
    rfl

/-- Under the invariant, lookup through the bucket structure agrees with the
key-slot store abstraction. -/
theorem lookup_eq_absFind {t : Table} (ht : Inv t) (k : Nat) :
    lookup t k = absFind t k := by
  unfold lookup
  cases hkr : keyRef t k with
  | some bji =>
    obtain ⟨b, j, i⟩ := bji
    obtain ⟨hc, hj, hb, d, hd⟩ := keyRef_eq_some hkr
    have hic : i < t.cfg.cap :=
      (ht.refOk b (cand_lt hc) j hj _ i hb).1
    rw [absFind_eq_some_of ht hic hd]
    simp only
    rw [hd]
    rfl
  | none =>
    cases ha : absFind t k with
    | none => rfl
    | some d =>
      obtain ⟨i, hic, hst⟩ := absFind_eq_some ha
      obtain ⟨b, j, hj, hc, hbj⟩ := ht.liveRef i hic k d hst
      exact absurd ⟨hbj, d, hst⟩ (keyRef_eq_none hkr b hc j hj i)

/-! ## Displacement preserves the invariant -/

theorem applyMove_spec {t t' : Table} {m : Move} (h : applyMove t m = some t') :
    ∃ si, t.buckets m.src m.slot = some si ∧
      m.src < t.cfg.nb ∧ m.slot < t.cfg.slots ∧ m.dstSlot < t.cfg.slots ∧
      m.dst = t.cfg.altIdx m.src si.1 ∧ t.buckets m.dst m.dstSlot = none ∧
      t' = (t.setB m.src m.slot none).setB m.dst m.dstSlot (some si) := by
  unfold applyMove at h
  cases hb : t.buckets m.src m.slot with
  | none => rw [hb] at h; cases h
  | some si =>
    rw [hb] at h
    simp only at h
    by_cases hc : m.src < t.cfg.nb ∧ m.slot < t.cfg.slots ∧ m.dstSlot < t.cfg.slots ∧
        m.dst = t.cfg.altIdx m.src si.1 ∧ t.buckets m.dst m.dstSlot = none
    · rw [if_pos hc] at h
      cases h
      exact ⟨si, rfl, hc.1, hc.2.1, hc.2.2.1, hc.2.2.2.1, hc.2.2.2.2, rfl⟩
    · rw [if_neg hc] at h; cases h

theorem applyMove_frame {t t' : Table} {m : Move} (h : applyMove t m = some t') :
    t'.cfg = t.cfg ∧ t'.store = t.store ∧ t'.freeList = t.freeList ∧
      t'.deferred = t.deferred := by
  obtain ⟨si, _, _, _, _, _, _, rfl⟩ := applyMove_spec h
  exact ⟨rfl, rfl, rfl, rfl⟩

theorem applyMove_inv {t t' : Table} {m : Move} (ht : Inv t)
    (h : applyMove t m = some t') : Inv t' := by
  obtain ⟨si, hb, hsrc, hslot, hds, hdst, hempty, rfl⟩ := applyMove_spec h
  -- facts about the moved entry
  obtain ⟨hicap, k, d, hstore, hsig, hcand⟩ :=
    ht.refOk m.src hsrc m.slot hslot si.1 si.2 (by rw [hb])
  have hdcand : Cand t.cfg k m.dst := by
    rw [hdst, hsig]; exact cand_altIdx hcand
  have hdlt : m.dst < t.cfg.nb := cand_lt hdcand
  have hne : ¬(m.src = m.dst ∧ m.slot = m.dstSlot) := by
    rintro ⟨h1, h2⟩
    rw [h1, h2, hempty] at hb
    cases hb
  -- bucket contents of the new table
  have hBdst : ((t.setB m.src m.slot none).setB m.dst m.dstSlot
      (some si)).buckets m.dst m.dstSlot = some si := setB_same _ _ _ _
  have hBsrc : ((t.setB m.src m.slot none).setB m.dst m.dstSlot
      (some si)).buckets m.src m.slot = none := by
    rw [setB_other _ _ _ _ hne]
    exact setB_same _ _ _ _
  have hBoth : ∀ b j, ¬(b = m.dst ∧ j = m.dstSlot) → ¬(b = m.src ∧ j = m.slot) →
      ((t.setB m.src m.slot none).setB m.dst m.dstSlot (some si)).buckets b j =
        t.buckets b j := by
    intro b j h1 h2
    rw [setB_other _ _ _ _ h1, setB_other _ _ _ _ h2]
  have hCases : ∀ b j s' i',
      ((t.setB m.src m.slot none).setB m.dst m.dstSlot (some si)).buckets b j =
        some (s', i') →
      (b = m.dst ∧ j = m.dstSlot ∧ (s', i') = si) ∨
      (¬(b = m.dst ∧ j = m.dstSlot) ∧ ¬(b = m.src ∧ j = m.slot) ∧
        t.buckets b j = some (s', i')) := by
    intro b j s' i' hocc
    by_cases h1 : b = m.dst ∧ j = m.dstSlot
    · left
      obtain ⟨rfl, rfl⟩ := h1
      rw [hBdst] at hocc
      cases hocc
      exact ⟨rfl, rfl, rfl⟩
    · right
      by_cases h2 : b = m.src ∧ j = m.slot
      · obtain ⟨rfl, rfl⟩ := h2
        rw [hBsrc] at hocc
        cases hocc
      · exact ⟨h1, h2, by rw [← hBoth b j h1 h2, hocc]⟩
  refine ⟨?_, ?_, ?_, ?_, ?_, ?_, ?_, ?_, ?_⟩
  · -- refOk
    intro b hbnb j hj s' i' hocc
    show i' < t.cfg.cap ∧ ∃ k0 d0, t.store i' = some (k0, d0) ∧
      s' = t.cfg.sigOf k0 ∧ Cand t.cfg k0 b
    rcases hCases b j s' i' hocc with ⟨rfl, rfl, hsi⟩ | ⟨_, _, horig⟩
    · have h1 : s' = si.1 := by rw [← hsi]
      have h2 : i' = si.2 := by rw [← hsi]
      rw [h1, h2]
      exact ⟨hicap, k, d, hstore, hsig, hdcand⟩
    · exact ht.refOk b hbnb j hj s' i' horig
  · -- refInj
    intro b1 h1 j1 hj1 b2 h2 j2 hj2 s1 s2 i0 hb1 hb2
    rcases hCases b1 j1 s1 i0 hb1 with ⟨rfl, rfl, hsi1⟩ | ⟨hn1, hn1x, ho1⟩ <;>
      rcases hCases b2 j2 s2 i0 hb2 with ⟨he1, he2, hsi2⟩ | ⟨hn2, hn2x, ho2⟩
    · exact ⟨he1.symm, he2.symm⟩
    · exfalso
      have hb1x : t.buckets m.src m.slot = some (s1, i0) := by rw [hsi1]; exact hb
      have hx := ht.refInj m.src hsrc m.slot hslot b2 h2 j2 hj2 s1 s2 i0 hb1x ho2
      exact hn2x ⟨hx.1.symm, hx.2.symm⟩
    · exfalso
      have hb2x : t.buckets m.src m.slot = some (s2, i0) := by rw [hsi2]; exact hb
      have hx := ht.refInj b1 h1 j1 hj1 m.src hsrc m.slot hslot s1 s2 i0 ho1 hb2x
      exact hn1x hx
    · exact ht.refInj b1 h1 j1 hj1 b2 h2 j2 hj2 s1 s2 i0 ho1 ho2
  · -- keyUniq (store unchanged)
    exact ht.keyUniq
  · -- liveRef
    intro i hi k0 d0 hst
    obtain ⟨b, j, hj, hc, hbj⟩ := ht.liveRef i hi k0 d0 hst
    by_cases hpos : b = m.src ∧ j = m.slot
    · obtain ⟨rfl, rfl⟩ := hpos
      rw [hb] at hbj
      cases hbj
      have hst2 : t.store i = some (k, d) := hstore
      have hst3 : t.store i = some (k0, d0) := hst
      rw [hst2] at hst3
      cases hst3
      exact ⟨m.dst, m.dstSlot, hds, hdcand, hBdst⟩
    · have hnd : ¬(b = m.dst ∧ j = m.dstSlot) := by
        rintro ⟨rfl, rfl⟩
        rw [hempty] at hbj
        cases hbj
      exact ⟨b, j, hj, hc, by rw [hBoth b j hnd hpos]; exact hbj⟩
  · exact ht.freeOk
  · exact ht.defOk
  · exact ht.nodupFD
  · -- highB
    intro b j hout
    have h1 : ¬(b = m.dst ∧ j = m.dstSlot) := by
      rintro ⟨rfl, rfl⟩
      rcases hout with h | h
      · exact absurd hdlt (Nat.not_lt.2 h)
      · exact absurd hds (Nat.not_lt.2 h)
    have h2 : ¬(b = m.src ∧ j = m.slot) := by
      rintro ⟨rfl, rfl⟩
      rcases hout with h | h
      · exact absurd hsrc (Nat.not_lt.2 h)
      · exact absurd hslot (Nat.not_lt.2 h)
    show ((t.setB m.src m.slot none).setB m.dst m.dstSlot (some si)).buckets b j = none
    rw [hBoth b j h1 h2]
    exact ht.highB b j hout
  · exact ht.highS

theorem applyMovesRev_inv {p : List Move} {t t' : Table} (ht : Inv t)
    (h : applyMovesRev t p = some t') : Inv t' := by
  induction p generalizing t' with
  | nil =>
    unfold applyMovesRev at h
    cases h
    exact ht
  | cons m p ih =>
    unfold applyMovesRev at h
    cases hp : applyMovesRev t p with
    | none => rw [hp] at h; cases h
    | some t1 =>
      rw [hp] at h
      exact applyMove_inv (ih hp) h

theorem applyMovesRev_frame {p : List Move} {t t' : Table}
    (h : applyMovesRev t p = some t') :
    t'.cfg = t.cfg ∧ t'.store = t.store ∧ t'.freeList = t.freeList ∧
      t'.deferred = t.deferred := by
  induction p generalizing t' with
  | nil =>
    unfold applyMovesRev at h
    cases h
    exact ⟨rfl, rfl, rfl, rfl⟩
  | cons m p ih =>
    unfold applyMovesRev at h
    cases hp : applyMovesRev t p with
    | none => rw [hp] at h; cases h
    | some t1 =>
      rw [hp] at h
      obtain ⟨h1, h2, h3, h4⟩ := ih hp
      obtain ⟨g1, g2, g3, g4⟩ := applyMove_frame h
      exact ⟨g1.trans h1, g2.trans h2, g3.trans h3, g4.trans h4⟩

/-! ## Placement of a new key -/

theorem findSome?_congr {α β : Type} {f g : α → Option β} {l : List α}
    (h : ∀ a ∈ l, f a = g a) : l.findSome? f = l.findSome? g := by
  induction l with
  | nil => rfl
  | cons x xs ih =>
    simp only [List.findSome?]
    rw [h x (List.mem_cons_self x xs)]
    cases g x with
    | some b => rfl
    | none =>
      simp only
      exact ih fun a ha => h a (List.mem_cons_of_mem x ha)

theorem absFind_ext {t1 t2 : Table} (hcap : t2.cfg.cap = t1.cfg.cap)
    (hst : t2.store = t1.store) : absFind t2 = absFind t1 := by
  funext k
  unfold absFind
  rw [hcap, hst]

theorem not_live_of_keyRef_none {t : Table} (ht : Inv t) {k : Nat}
    (h : keyRef t k = none) : ∀ i < t.cfg.cap, ∀ d, t.store i ≠ some (k, d) := by
  intro i hi d hst
  obtain ⟨b, j, hj, hc, hbj⟩ := ht.liveRef i hi k d hst
  exact keyRef_eq_none h b hc j hj i ⟨hbj, d, hst⟩

theorem place_cfg (t : Table) (b j ni k d : Nat) (rest : List Nat) :
    (place t b j ni k d rest).cfg = t.cfg := rfl

theorem place_freeList (t : Table) (b j ni k d : Nat) (rest : List Nat) :
    (place t b j ni k d rest).freeList = rest := rfl

theorem place_deferred (t : Table) (b j ni k d : Nat) (rest : List Nat) :
    (place t b j ni k d rest).deferred = t.deferred := rfl

theorem place_store_same (t : Table) (b j ni k d : Nat) (rest : List Nat) :
    (place t b j ni k d rest).store ni = some (k, d) := by
  simp [place, Table.setS]

theorem place_store_other (t : Table) (b j ni k d : Nat) (rest : List Nat)
    {i' : Nat} (h : i' ≠ ni) :
    (place t b j ni k d rest).store i' = t.store i' := by
  simp [place, Table.setS, Table.setB, h]

theorem place_buckets_same (t : Table) (b j ni k d : Nat) (rest : List Nat) :
    (place t b j ni k d rest).buckets b j = some (t.cfg.sigOf k, ni) := by
  simp [place, Table.setS, Table.setB]

theorem place_buckets_other (t : Table) (b j ni k d : Nat) (rest : List Nat)
    {b' j' : Nat} (h : ¬(b' = b ∧ j' = j)) :
    (place t b j ni k d rest).buckets b' j' = t.buckets b' j' := by
  simp only [place]
  show (t.setB b j (some (t.cfg.sigOf k, ni))).buckets b' j' = t.buckets b' j'
  exact setB_other _ _ _ _ h

theorem place_spec {t : Table} (ht : Inv t) {b j ni k d : Nat} {rest : List Nat}
    (hc : Cand t.cfg k b) (hj : j < t.cfg.slots) (hbj : t.buckets b j = none)
    (hfl : t.freeList = ni :: rest)
    (hnl : ∀ i < t.cfg.cap, ∀ d', t.store i ≠ some (k, d')) :
    Inv (place t b j ni k d rest) ∧
      absFind (place t b j ni k d rest) k = some d ∧
      ∀ k', k' ≠ k → absFind (place t b j ni k d rest) k' = absFind t k' := by
  have hmem : ni ∈ t.freeList := by rw [hfl]; exact List.mem_cons_self _ _
  obtain ⟨hnicap, hnistore⟩ := ht.freeOk ni hmem
  have hnodup : (t.freeList ++ t.deferred).Nodup := ht.nodupFD
  rw [hfl] at hnodup
  have hnodup' : (ni :: (rest ++ t.deferred)).Nodup := by simpa using hnodup
  have hnirest : ni ∉ rest := fun hm =>
    (List.nodup_cons.1 hnodup').1 (List.mem_append_left _ hm)
  have hnidef : ni ∉ t.deferred := fun hm =>
    (List.nodup_cons.1 hnodup').1 (List.mem_append_right _ hm)
  have hblt : b < t.cfg.nb := cand_lt hc
  -- entry facts: a bucket slot of the new table
  have hCases : ∀ b' j' s' i',
      (place t b j ni k d rest).buckets b' j' = some (s', i') →
      (b' = b ∧ j' = j ∧ s' = t.cfg.sigOf k ∧ i' = ni) ∨
      (¬(b' = b ∧ j' = j) ∧ t.buckets b' j' = some (s', i')) := by
    intro b' j' s' i' hocc
    by_cases h1 : b' = b ∧ j' = j
    · left
      obtain ⟨rfl, rfl⟩ := h1
      rw [place_buckets_same] at hocc
      cases hocc
      exact ⟨rfl, rfl, rfl, rfl⟩
    · right
      exact ⟨h1, by rw [← place_buckets_other t b j ni k d rest h1, hocc]⟩
  have hInv : Inv (place t b j ni k d rest) := by
    refine ⟨?_, ?_, ?_, ?_, ?_, ?_, ?_, ?_, ?_⟩
    · -- refOk
      intro b' hb' j' hj' s' i' hocc
      show i' < t.cfg.cap ∧ ∃ k0 d0, (place t b j ni k d rest).store i' = some (k0, d0) ∧
        s' = t.cfg.sigOf k0 ∧ Cand t.cfg k0 b'
      rcases hCases b' j' s' i' hocc with ⟨hbe, hje, hse, hie⟩ | ⟨hne, horig⟩
      · rw [hbe, hse, hie]
        exact ⟨hnicap, k, d, place_store_same t b j ni k d rest, rfl, hc⟩
      · obtain ⟨hic, k0, d0, hst0, hsig0, hcand0⟩ := ht.refOk b' hb' j' hj' s' i' horig
        have hi'ni : i' ≠ ni := fun he => by rw [he, hnistore] at hst0; cases hst0
        exact ⟨hic, k0, d0, by rw [place_store_other t b j ni k d rest hi'ni]; exact hst0,
          hsig0, hcand0⟩
    · -- refInj
      intro b1 h1 j1 hj1 b2 h2 j2 hj2 s1 s2 i0 hb1 hb2
      rcases hCases b1 j1 s1 i0 hb1 with ⟨hbe1, hje1, hse1, hie1⟩ | ⟨hn1, ho1⟩ <;>
        rcases hCases b2 j2 s2 i0 hb2 with ⟨hbe2, hje2, hse2, hie2⟩ | ⟨hn2, ho2⟩
      · exact ⟨hbe1.trans hbe2.symm, hje1.trans hje2.symm⟩
      · exfalso
        obtain ⟨hic, k0, d0, hst0, -, -⟩ := ht.refOk b2 h2 j2 hj2 s2 i0 ho2
        rw [hie1, hnistore] at hst0
        cases hst0
      · exfalso
        obtain ⟨hic, k0, d0, hst0, -, -⟩ := ht.refOk b1 h1 j1 hj1 s1 i0 ho1
        rw [hie2, hnistore] at hst0
        cases hst0
      · exact ht.refInj b1 h1 j1 hj1 b2 h2 j2 hj2 s1 s2 i0 ho1 ho2
    · -- keyUniq
      intro i1 hi1 i2 hi2 k0 d1 d2 hst1 hst2
      show i1 = i2
      by_cases he1 : i1 = ni <;> by_cases he2 : i2 = ni
      · rw [he1, he2]
      · exfalso
        rw [he1, place_store_same] at hst1
        cases hst1
        rw [place_store_other t b j ni k d rest he2] at hst2
        exact hnl i2 hi2 d2 hst2
      · exfalso
        rw [he2, place_store_same] at hst2
        cases hst2
        rw [place_store_other t b j ni k d rest he1] at hst1
        exact hnl i1 hi1 d1 hst1
      · rw [place_store_other t b j ni k d rest he1] at hst1
        rw [place_store_other t b j ni k d rest he2] at hst2
        exact ht.keyUniq i1 hi1 i2 hi2 k0 d1 d2 hst1 hst2
    · -- liveRef
      intro i hi k0 d0 hst
      by_cases he : i = ni
      · rw [he, place_store_same] at hst
        cases hst
        rw [he]
        exact ⟨b, j, hj, hc, place_buckets_same t b j ni k d rest⟩
      · rw [place_store_other t b j ni k d rest he] at hst
        obtain ⟨b0, j0, hj0, hc0, hb0⟩ := ht.liveRef i hi k0 d0 hst
        have hne : ¬(b0 = b ∧ j0 = j) := by
          rintro ⟨rfl, rfl⟩
          rw [hbj] at hb0
          cases hb0
        exact ⟨b0, j0, hj0, hc0, by
          rw [place_buckets_other t b j ni k d rest hne]; exact hb0⟩
    · -- freeOk
      intro i hi
      have hmem' : i ∈ t.freeList := by rw [hfl]; exact List.mem_cons_of_mem _ hi
      obtain ⟨hic, hst⟩ := ht.freeOk i hmem'
      have hne : i ≠ ni := fun he => hnirest (he ▸ hi)
      exact ⟨hic, by rw [place_store_other t b j ni k d rest hne]; exact hst⟩
    · -- defOk
      intro i hi
      obtain ⟨hic, hst⟩ := ht.defOk i hi
      have hne : i ≠ ni := fun he => hnidef (he ▸ hi)
      exact ⟨hic, by rw [place_store_other t b j ni k d rest hne]; exact hst⟩
    · -- nodupFD
      show (rest ++ t.deferred).Nodup
      exact (List.nodup_cons.1 hnodup').2
    · -- highB
      intro b' j' hout
      have hne : ¬(b' = b ∧ j' = j) := by
        rintro ⟨rfl, rfl⟩
        rcases hout with h | h
        · exact absurd hblt (Nat.not_lt.2 h)
        · exact absurd hj (Nat.not_lt.2 h)
      show (place t b j ni k d rest).buckets b' j' = none
      rw [place_buckets_other t b j ni k d rest hne]
      exact ht.highB b' j' hout
    · -- highS
      intro i hi
      have hne : i ≠ ni := fun he => absurd hnicap (Nat.not_lt.2 (he ▸ hi))
      show (place t b j ni k d rest).store i = none
      rw [place_store_other t b j ni k d rest hne]
      exact ht.highS i hi
  refine ⟨hInv, ?_, ?_⟩
  · exact absFind_eq_some_of hInv hnicap (place_store_same t b j ni k d rest)
  · intro k' hk'
    unfold absFind
    refine findSome?_congr ?_
    intro i _
    by_cases he : i = ni
    · subst he
      rw [place_store_same, hnistore]
      simp [Ne.symm hk']
    · rw [place_store_other t b j ni k d rest he]

/-! ## Duplicate-key update -/

theorem update_spec {t : Table} (ht : Inv t) {b j i k d : Nat}
    (hkr : keyRef t k = some (b, j, i)) :
    Inv (t.setS i (some (k, d))) ∧
      absFind (t.setS i (some (k, d))) k = some d ∧
      ∀ k', k' ≠ k → absFind (t.setS i (some (k, d))) k' = absFind t k' := by
  obtain ⟨hc, hj, hbj, d0, hst⟩ := keyRef_eq_some hkr
  have hic : i < t.cfg.cap := (ht.refOk b (cand_lt hc) j hj _ i hbj).1
  have hInv : Inv (t.setS i (some (k, d))) := by
    refine ⟨?_, ?_, ?_, ?_, ?_, ?_, ?_, ?_, ?_⟩
    · -- refOk
      intro b' hb' j' hj' s' i' hocc
      have hocc' : t.buckets b' j' = some (s', i') := hocc
      obtain ⟨hic', k0, d0', hst0, hsig0, hcand0⟩ := ht.refOk b' hb' j' hj' s' i' hocc'
      show i' < t.cfg.cap ∧ ∃ k1 d1, (t.setS i (some (k, d))).store i' = some (k1, d1) ∧
        s' = t.cfg.sigOf k1 ∧ Cand t.cfg k1 b'
      by_cases he : i' = i
      · rw [he] at hst0
        rw [hst] at hst0
        cases hst0
        refine ⟨hic', k, d, ?_, hsig0, hcand0⟩
        rw [he]
        exact setS_same t i _
      · exact ⟨hic', k0, d0', by rw [setS_other t i _ he]; exact hst0, hsig0, hcand0⟩
    · exact ht.refInj
    · -- keyUniq
      intro i1 hi1 i2 hi2 k0 d1 d2 hst1 hst2
      show i1 = i2
      by_cases he1 : i1 = i <;> by_cases he2 : i2 = i
      · rw [he1, he2]
      · rw [he1, setS_same] at hst1
        cases hst1
        rw [setS_other t i _ he2] at hst2
        rw [he1]
        exact ht.keyUniq i hic i2 hi2 k d0 d2 hst hst2
      · rw [he2, setS_same] at hst2
        cases hst2
        rw [setS_other t i _ he1] at hst1
        rw [he2]
        exact ht.keyUniq i1 hi1 i hic k d1 d0 hst1 hst
      · rw [setS_other t i _ he1] at hst1
        rw [setS_other t i _ he2] at hst2
        exact ht.keyUniq i1 hi1 i2 hi2 k0 d1 d2 hst1 hst2
    · -- liveRef
      intro i' hi' k0 d' hst'
      by_cases he : i' = i
      · rw [he, setS_same] at hst'
        cases hst'
        obtain ⟨b0, j0, hj0, hc0, hb0⟩ := ht.liveRef i hic k d0 hst
        rw [he]
        exact ⟨b0, j0, hj0, hc0, hb0⟩
      · rw [setS_other t i _ he] at hst'
        exact ht.liveRef i' hi' k0 d' hst'
    · -- freeOk
      intro i' hi'
      obtain ⟨hic', hst'⟩ := ht.freeOk i' hi'
      have he : i' ≠ i := fun hh => by rw [hh, hst] at hst'; cases hst'
      exact ⟨hic', by rw [setS_other t i _ he]; exact hst'⟩
    · -- defOk
      intro i' hi'
      obtain ⟨hic', hst'⟩ := ht.defOk i' hi'
      have he : i' ≠ i := fun hh => by rw [hh, hst] at hst'; cases hst'
      exact ⟨hic', by rw [setS_other t i _ he]; exact hst'⟩
    · exact ht.nodupFD
    · exact ht.highB
    · -- highS
      intro i' hi'
      have he : i' ≠ i := fun hh => absurd hic (Nat.not_lt.2 (hh ▸ hi'))
      show (t.setS i (some (k, d))).store i' = none
      rw [setS_other t i _ he]
      exact ht.highS i' hi'
  refine ⟨hInv, ?_, ?_⟩
  · exact absFind_eq_some_of hInv hic (setS_same t i _)
  · intro k' hk'
    unfold absFind
    refine findSome?_congr ?_
    intro i' _
    by_cases he : i' = i
    · rw [he, setS_same, hst]
      simp [Ne.symm hk']
    · rw [setS_other t i _ he]

/-! ## The insert step lemma -/

theorem insert_step {t : Table} (ht : Inv t) (k d : Nat) :
    Inv (insert t k d).1 ∧
      ∀ k', absFind (insert t k d).1 k' =
        refApply (absFind t) (.ins k d, (insert t k d).2) k' := by
  unfold insert
  cases hkr : keyRef t k with
  | some bji =>
    obtain ⟨b, j, i⟩ := bji
    simp only
    by_cases hdu : t.cfg.dupUpdate = true
    · rw [if_pos hdu]
      obtain ⟨hI, habs, hother⟩ := update_spec ht hkr
      refine ⟨hI, ?_⟩
      intro k'
      show absFind (t.setS i (some (k, d))) k' = if k' = k then some d else absFind t k'
      by_cases hk : k' = k
      · rw [if_pos hk, hk, habs]
      · rw [if_neg hk, hother k' hk]
    · rw [if_neg hdu]
      exact ⟨ht, fun k' => rfl⟩
  | none =>
    have hnl := not_live_of_keyRef_none ht hkr
    cases hfl : t.freeList with
    | nil => exact ⟨ht, fun k' => rfl⟩
    | cons ni rest =>
      simp only
      cases hes1 : emptySlotIn t (t.cfg.prim k) with
      | some j =>
        obtain ⟨hj, hbj⟩ := emptySlotIn_eq_some hes1
        obtain ⟨hI, habs, hother⟩ := place_spec ht (Or.inl rfl) hj hbj hfl hnl
        refine ⟨hI, ?_⟩
        intro k'
        show absFind (place t (t.cfg.prim k) j ni k d rest) k' =
          if k' = k then some d else absFind t k'
        by_cases hk : k' = k
        · rw [if_pos hk, hk, habs]
        · rw [if_neg hk, hother k' hk]
      | none =>
        cases hes2 : emptySlotIn t (t.cfg.altB k) with
        | some j =>
          obtain ⟨hj, hbj⟩ := emptySlotIn_eq_some hes2
          obtain ⟨hI, habs, hother⟩ := place_spec ht (Or.inr rfl) hj hbj hfl hnl
          refine ⟨hI, ?_⟩
          intro k'
          show absFind (place t (t.cfg.altB k) j ni k d rest) k' =
            if k' = k then some d else absFind t k'
          by_cases hk : k' = k
          · rw [if_pos hk, hk, habs]
          · rw [if_neg hk, hother k' hk]
        | none =>
          cases hp1 : findPathFrom t t.cfg.depth (t.cfg.prim k) with
          | some pjf =>
            obtain ⟨p, jf⟩ := pjf
            simp only
            cases happ : applyMovesRev t p with
            | some t1 =>
              simp only
              have hI1 : Inv t1 := applyMovesRev_inv ht happ
              obtain ⟨hcfg1, hst1, hfl1, hdef1⟩ := applyMovesRev_frame happ
              by_cases hcond : t1.buckets (t.cfg.prim k) jf = none ∧ jf < t.cfg.slots
              · rw [if_pos hcond]
                have hcap1 : t1.cfg.cap = t.cfg.cap := by rw [hcfg1]
                have habs1 : absFind t1 = absFind t := absFind_ext hcap1 hst1
                have hc1 : Cand t1.cfg k (t.cfg.prim k) := by rw [hcfg1]; exact Or.inl rfl
                have hj1 : jf < t1.cfg.slots := by rw [hcfg1]; exact hcond.2
                have hfl1' : t1.freeList = ni :: rest := by rw [hfl1]; exact hfl
                have hnl1 : ∀ i < t1.cfg.cap, ∀ d', t1.store i ≠ some (k, d') := by
                  rw [hcap1, hst1]; exact hnl
                obtain ⟨hI, habs, hother⟩ :=
                  place_spec hI1 hc1 hj1 hcond.1 hfl1' hnl1
                refine ⟨hI, ?_⟩
                intro k'
                show absFind (place t1 (t.cfg.prim k) jf ni k d rest) k' =
                  if k' = k then some d else absFind t k'
                by_cases hk : k' = k
                · rw [if_pos hk, hk, habs]
                · rw [if_neg hk, hother k' hk, habs1]
              · rw [if_neg hcond]
                exact ⟨ht, fun k' => rfl⟩
            | none => exact ⟨ht, fun k' => rfl⟩
          | none =>
            cases hp2 : findPathFrom t t.cfg.depth (t.cfg.altB k) with
            | some pjf =>
              obtain ⟨p, jf⟩ := pjf
              simp only
              cases happ : applyMovesRev t p with
              | some t1 =>
                simp only
                have hI1 : Inv t1 := applyMovesRev_inv ht happ
                obtain ⟨hcfg1, hst1, hfl1, hdef1⟩ := applyMovesRev_frame happ
                by_cases hcond : t1.buckets (t.cfg.altB k) jf = none ∧ jf < t.cfg.slots
                · rw [if_pos hcond]
                  have hcap1 : t1.cfg.cap = t.cfg.cap := by rw [hcfg1]
                  have habs1 : absFind t1 = absFind t := absFind_ext hcap1 hst1
                  have hc1 : Cand t1.cfg k (t.cfg.altB k) := by rw [hcfg1]; exact Or.inr rfl
                  have hj1 : jf < t1.cfg.slots := by rw [hcfg1]; exact hcond.2
                  have hfl1' : t1.freeList = ni :: rest := by rw [hfl1]; exact hfl
                  have hnl1 : ∀ i < t1.cfg.cap, ∀ d', t1.store i ≠ some (k, d') := by
                    rw [hcap1, hst1]; exact hnl
                  obtain ⟨hI, habs, hother⟩ :=
                    place_spec hI1 hc1 hj1 hcond.1 hfl1' hnl1
                  refine ⟨hI, ?_⟩
                  intro k'
                  show absFind (place t1 (t.cfg.altB k) jf ni k d rest) k' =
                    if k' = k then some d else absFind t k'
                  by_cases hk : k' = k
                  · rw [if_pos hk, hk, habs]
                  · rw [if_neg hk, hother k' hk, habs1]
                · rw [if_neg hcond]
                  exact ⟨ht, fun k' => rfl⟩
              | none => exact ⟨ht, fun k' => rfl⟩
            | none => exact ⟨ht, fun k' => rfl⟩

/-! ## The delete step lemma -/

theorem delete_inv_abs {t : Table} (ht : Inv t) {k b j i : Nat}
    (hkr : keyRef t k = some (b, j, i)) {fl df : List Nat}
    (hfd : (fl ++ df).Nodup)
    (hflc : fl = t.freeList ∧ df = t.deferred ++ [i] ∨
            fl = t.freeList ++ [i] ∧ df = t.deferred)
    (hflOk : ∀ i' ∈ fl, i' = i ∨ i' ∈ t.freeList)
    (hdfOk : ∀ i' ∈ df, i' = i ∨ i' ∈ t.deferred) :
    Inv { (t.setB b j none).setS i none with freeList := fl, deferred := df } ∧
      absFind { (t.setB b j none).setS i none with freeList := fl, deferred := df } k
        = none ∧
      ∀ k', k' ≠ k →
        absFind { (t.setB b j none).setS i none with freeList := fl, deferred := df } k'
          = absFind t k' := by
  obtain ⟨hc, hj, hbj, d0, hst⟩ := keyRef_eq_some hkr
  have hblt : b < t.cfg.nb := cand_lt hc
  have hic : i < t.cfg.cap := (ht.refOk b hblt j hj _ i hbj).1
  have hBother : ∀ b' j', ¬(b' = b ∧ j' = j) →
      ({ (t.setB b j none).setS i none with
          freeList := fl, deferred := df } : Table).buckets b' j' = t.buckets b' j' := by
    intro b' j' hne
    show (t.setB b j none).buckets b' j' = t.buckets b' j'
    exact setB_other _ _ _ _ hne
  have hBsame : ({ (t.setB b j none).setS i none with
      freeList := fl, deferred := df } : Table).buckets b j = none := by
    show (t.setB b j none).buckets b j = none
    exact setB_same _ _ _ _
  have hSother : ∀ i', i' ≠ i →
      ({ (t.setB b j none).setS i none with
          freeList := fl, deferred := df } : Table).store i' = t.store i' := by
    intro i' hne
    show ((t.setB b j none).setS i none).store i' = t.store i'
    rw [setS_other _ _ _ hne]
    rfl
  have hSsame : ({ (t.setB b j none).setS i none with
      freeList := fl, deferred := df } : Table).store i = none := by
    show ((t.setB b j none).setS i none).store i = none
    exact setS_same _ _ _
  have hScases : ∀ i' v, ({ (t.setB b j none).setS i none with
      freeList := fl, deferred := df } : Table).store i' = some v →
      i' ≠ i ∧ t.store i' = some v := by
    intro i' v hv
    by_cases hne : i' = i
    · rw [hne, hSsame] at hv; cases hv
    · exact ⟨hne, by rw [← hSother i' hne]; exact hv⟩
  have hBcases : ∀ b' j' s' i', ({ (t.setB b j none).setS i none with
      freeList := fl, deferred := df } : Table).buckets b' j' = some (s', i') →
      ¬(b' = b ∧ j' = j) ∧ t.buckets b' j' = some (s', i') ∧ i' ≠ i := by
    intro b' j' s' i' hv
    by_cases hne : b' = b ∧ j' = j
    · obtain ⟨rfl, rfl⟩ := hne
      rw [hBsame] at hv
      cases hv
    · refine ⟨hne, by rw [← hBother b' j' hne]; exact hv, ?_⟩
      intro hei
      subst hei
      have horig : t.buckets b' j' = some (s', i') := by
        rw [← hBother b' j' hne]; exact hv
      have := ht.refInj b' (by
          by_cases hbn : b' < t.cfg.nb
          · exact hbn
          · exfalso
            rw [ht.highB b' j' (Or.inl (Nat.not_lt.1 hbn))] at horig
            cases horig) j' (by
          by_cases hjn : j' < t.cfg.slots
          · exact hjn
          · exfalso
            rw [ht.highB b' j' (Or.inr (Nat.not_lt.1 hjn))] at horig
            cases horig) b hblt j hj s' (t.cfg.sigOf k) i' horig hbj
      exact hne ⟨this.1, this.2⟩
  have hInv : Inv { (t.setB b j none).setS i none with
      freeList := fl, deferred := df } := by
    refine ⟨?_, ?_, ?_, ?_, ?_, ?_, ?_, ?_, ?_⟩
    · -- refOk
      intro b' hb' j' hj' s' i' hocc
      obtain ⟨hne, horig, hi'⟩ := hBcases b' j' s' i' hocc
      obtain ⟨hic', k0, d0', hst0, hsig0, hcand0⟩ := ht.refOk b' hb' j' hj' s' i' horig
      exact ⟨hic', k0, d0', by rw [hSother i' hi']; exact hst0, hsig0, hcand0⟩
    · -- refInj
      intro b1 h1 j1 hj1 b2 h2 j2 hj2 s1 s2 i0 hb1 hb2
      obtain ⟨-, ho1, -⟩ := hBcases b1 j1 s1 i0 hb1
      obtain ⟨-, ho2, -⟩ := hBcases b2 j2 s2 i0 hb2
      exact ht.refInj b1 h1 j1 hj1 b2 h2 j2 hj2 s1 s2 i0 ho1 ho2
    · -- keyUniq
      intro i1 hi1 i2 hi2 k0 d1 d2 hst1 hst2
      obtain ⟨-, ho1⟩ := hScases i1 _ hst1
      obtain ⟨-, ho2⟩ := hScases i2 _ hst2
      exact ht.keyUniq i1 hi1 i2 hi2 k0 d1 d2 ho1 ho2
    · -- liveRef
      intro i' hi' k0 d' hst'
      obtain ⟨hne, ho⟩ := hScases i' _ hst'
      obtain ⟨b0, j0, hj0, hc0, hb0⟩ := ht.liveRef i' hi' k0 d' ho
      have hnb : ¬(b0 = b ∧ j0 = j) := by
        rintro ⟨rfl, rfl⟩
        rw [hbj] at hb0
        exact hne (congrArg Prod.snd (Option.some.inj hb0)).symm
      exact ⟨b0, j0, hj0, hc0, by rw [hBother b0 j0 hnb]; exact hb0⟩
    · -- freeOk
      intro i' hi'
      rcases hflOk i' hi' with rfl | hmem
      · exact ⟨hic, hSsame⟩
      · obtain ⟨hic', hst'⟩ := ht.freeOk i' hmem
        have hne : i' ≠ i := fun hh => by rw [hh, hst] at hst'; cases hst'
        exact ⟨hic', by rw [hSother i' hne]; exact hst'⟩
    · -- defOk
      intro i' hi'
      rcases hdfOk i' hi' with rfl | hmem
      · exact ⟨hic, hSsame⟩
      · obtain ⟨hic', hst'⟩ := ht.defOk i' hmem
        have hne : i' ≠ i := fun hh => by rw [hh, hst] at hst'; cases hst'
        exact ⟨hic', by rw [hSother i' hne]; exact hst'⟩
    · exact hfd
    · -- highB
      intro b' j' hout
      have hne : ¬(b' = b ∧ j' = j) := by
        rintro ⟨rfl, rfl⟩
        rcases hout with h | h
        · exact absurd hblt (Nat.not_lt.2 h)
        · exact absurd hj (Nat.not_lt.2 h)
      rw [hBother b' j' hne]
      exact ht.highB b' j' hout
    · -- highS
      intro i' hi'
      have hne : i' ≠ i := fun hh => absurd hic (Nat.not_lt.2 (hh ▸ hi'))
      rw [hSother i' hne]
      exact ht.highS i' hi'
  refine ⟨hInv, ?_, ?_⟩
  · -- the deleted key is gone
    cases ha : absFind { (t.setB b j none).setS i none with
        freeList := fl, deferred := df } k with
    | none => rfl
    | some d' =>
      obtain ⟨i', hi', hst'⟩ := absFind_eq_some ha
      obtain ⟨hne, ho⟩ := hScases i' _ hst'
      exact absurd (ht.keyUniq i' hi' i hic k d' d0 ho hst) hne
  · -- other keys unchanged
    intro k' hk'
    unfold absFind
    refine findSome?_congr ?_
    intro i' _
    by_cases he : i' = i
    · rw [he, hSsame, hst]
      simp [Ne.symm hk']
    · rw [hSother i' he]

theorem delete_step {t : Table} (ht : Inv t) (k : Nat) :
    Inv (delete t k).1 ∧
      ∀ k', absFind (delete t k).1 k' =
        refApply (absFind t) (.del k, (delete t k).2) k' := by
  unfold delete
  cases hkr : keyRef t k with
  | none => exact ⟨ht, fun k' => rfl⟩
  | some bji =>
    obtain ⟨b, j, i⟩ := bji
    simp only
    obtain ⟨hc, hj, hbj, d0, hst⟩ := keyRef_eq_some hkr
    have hblt : b < t.cfg.nb := cand_lt hc
    have hic : i < t.cfg.cap := (ht.refOk b hblt j hj _ i hbj).1
    have hinot : i ∉ t.freeList ++ t.deferred := by
      intro hm
      rcases List.mem_append.1 hm with hm | hm
      · obtain ⟨-, hno⟩ := ht.freeOk i hm
        rw [hno] at hst
        cases hst
      · obtain ⟨-, hno⟩ := ht.defOk i hm
        rw [hno] at hst
        cases hst
    have hbase : ((t.freeList ++ t.deferred) ++ [i]).Nodup := by
      rw [List.nodup_append]
      refine ⟨ht.nodupFD, List.nodup_singleton i, ?_⟩
      intro a ha hb
      rw [List.mem_singleton.1 hb] at ha
      exact hinot ha
    by_cases hcc : t.cfg.concurrent = true
    · rw [if_pos hcc]
      have hfd : (t.freeList ++ (t.deferred ++ [i])).Nodup := by
        rw [← List.append_assoc]
        exact hbase
      obtain ⟨hI, habs, hother⟩ := delete_inv_abs ht hkr hfd
        (Or.inl ⟨rfl, rfl⟩)
        (fun i' hi' => Or.inr hi')
        (fun i' hi' => by
          rcases List.mem_append.1 hi' with hm | hm
          · exact Or.inr hm
          · exact Or.inl (List.mem_singleton.1 hm))
      refine ⟨hI, ?_⟩
      intro k'
      show absFind _ k' = if k' = k then none else absFind t k'
      by_cases hk : k' = k
      · rw [if_pos hk, hk]
        exact habs
      · rw [if_neg hk]
        exact hother k' hk
    · rw [if_neg hcc]
      have hfd : ((t.freeList ++ [i]) ++ t.deferred).Nodup := by
        have hbase' : (t.freeList ++ (t.deferred ++ [i])).Nodup := by
          rw [← List.append_assoc]
          exact hbase
        rw [List.append_assoc]
        exact (List.Perm.append_left t.freeList List.perm_append_comm).nodup hbase'
      obtain ⟨hI, habs, hother⟩ := delete_inv_abs ht hkr hfd
        (Or.inr ⟨rfl, rfl⟩)
        (fun i' hi' => by
          rcases List.mem_append.1 hi' with hm | hm
          · exact Or.inr hm
          · exact Or.inl (List.mem_singleton.1 hm))
        (fun i' hi' => Or.inr hi')
      refine ⟨hI, ?_⟩
      intro k'
      show absFind _ k' = if k' = k then none else absFind t k'
      by_cases hk : k' = k
      · rw [if_pos hk, hk]
        exact habs
      · rw [if_neg hk]
        exact hother k' hk

/-! ## Whole-run correspondence -/

theorem step_spec {t : Table} (ht : Inv t) (o : Op) :
    Inv (step t o).1 ∧
      ∀ k', absFind (step t o).1 k' = refApply (absFind t) (o, (step t o).2) k' := by
  cases o with
  | ins k d => exact insert_step ht k d
  | del k => exact delete_step ht k

theorem runOps_spec {t : Table} (ht : Inv t) (ops : List Op) :
    Inv (runOps t ops).1 ∧
      ∀ k, absFind (runOps t ops).1 k =
        refRun (absFind t) (ops.zip (runOps t ops).2) k := by
  induction ops generalizing t with
  | nil => exact ⟨ht, fun k => rfl⟩
  | cons o os ih =>
    obtain ⟨hI1, habs1⟩ := step_spec ht o
    have hmap : absFind (step t o).1 = refApply (absFind t) (o, (step t o).2) :=
      funext habs1
    obtain ⟨hI2, habs2⟩ := ih hI1
    refine ⟨?_, ?_⟩
    · show Inv (runOps t (o :: os)).1
      unfold runOps
      simp only
      exact hI2
    · intro k
      show absFind (runOps t (o :: os)).1 k =
        refRun (absFind t) ((o :: os).zip (runOps t (o :: os)).2) k
      unfold runOps
      simp only [List.zip_cons_cons]
      show absFind (runOps (step t o).1 os).1 k =
        refRun (refApply (absFind t) (o, (step t o).2))
          (os.zip (runOps (step t o).1 os).2) k
      rw [habs2 k, hmap]

theorem absFind_mkTable (c : Cfg) (k : Nat) : absFind (mkTable c) k = none := by
  unfold absFind
  rw [findSome?_eq_none_iff]
  intro i _
  rfl

/-- C1: for every sequence of insert and delete operations run from a fresh
table, every key whose most recent successful insert has not been deleted is
found by `lookup` with exactly the data of that most recent insert (the
reference-map semantics `refRun` of the logged run records precisely the
data associated with each key at its most recent insert, erased on delete). -/
theorem C1_insert_lookup_correspondence (c : Cfg) (ops : List Op) (k d : Nat)
    (h : refRun (fun _ => none) (ops.zip (runOps (mkTable c) ops).2) k = some d) :
    lookup (runOps (mkTable c) ops).1 k = some d := by
  obtain ⟨hI, habs⟩ := runOps_spec (inv_mkTable c) ops
  rw [lookup_eq_absFind hI k, habs k]
  have hempty : absFind (mkTable c) = fun _ => none := funext (absFind_mkTable c)
  rw [hempty]
  exact h

/-- Witness for C1 at a concrete configuration and workload: insert 1 and 2,
delete 2, then look 1 up. -/
theorem C1_witness :
    refRun (fun _ => none)
        (([Op.ins 1 10, Op.ins 2 20, Op.del 2]).zip
          (runOps (mkTable ⟨2, 2, 8, id, id, id, 3, true, false⟩)
            [Op.ins 1 10, Op.ins 2 20, Op.del 2]).2) 1 = some 10 ∧
      lookup (runOps (mkTable ⟨2, 2, 8, id, id, id, 3, true, false⟩)
        [Op.ins 1 10, Op.ins 2 20, Op.del 2]).1 1 = some 10 := by
  refine ⟨by decide, ?_⟩
  exact C1_insert_lookup_correspondence ⟨2, 2, 8, id, id, id, 3, true, false⟩
    [Op.ins 1 10, Op.ins 2 20, Op.del 2] 1 10 (by decide)

/-! ## Alternate-bucket algebra (C4) -/

/-- C4: the alternate bucket index is `p XOR hash(signature)` (reduced into
the power-of-two index range); applying the same formula to the alternate
index with the same signature returns the primary index, and the result is
always a valid bucket index — so the second candidate bucket of an occupied
slot is computable from the stored signature alone, with no key and no
original key hash. -/
theorem C4_alt_index_involution (c : Cfg) (p s : Nat) (hp : p < c.nb) :
    c.altIdx p s = p ^^^ (c.sigHash s % c.nb) ∧
      c.altIdx p s < c.nb ∧
      c.altIdx (c.altIdx p s) s = p :=
  ⟨rfl, altIdx_lt c s hp, altIdx_invol c p s⟩

/-- Witness for C4 at a concrete configuration and index. -/
theorem C4_witness :
    (3 : Nat) < Cfg.nb ⟨3, 4, 16, id, id, id, 3, true, false⟩ ∧
      Cfg.altIdx ⟨3, 4, 16, id, id, id, 3, true, false⟩
          (Cfg.altIdx ⟨3, 4, 16, id, id, id, 3, true, false⟩ 3 6) 6 = 3 := by
  refine ⟨by decide, ?_⟩
  exact (C4_alt_index_involution ⟨3, 4, 16, id, id, id, 3, true, false⟩ 3 6
    (by decide)).2.2

/-! ## Table-full behaviour (C2) -/

theorem pathScan_eq_none {t : Table} {b : Nat} {rec : Nat → Option (List Move × Nat)}
    {js : List Nat}
    (h : ∀ j ∈ js, ∀ si, t.buckets b j = some si →
      rec (t.cfg.altIdx b si.1) = none) :
    pathScan t b rec js = none := by
  induction js with
  | nil => rfl
  | cons j js ih =>
    unfold pathScan
    cases hb : t.buckets b j with
    | none =>
      exact ih fun j' hj' si hsi => h j' (List.mem_cons_of_mem j hj') si hsi
    | some si =>
      simp only
      rw [h j (List.mem_cons_self j js) si hb]
      exact ih fun j' hj' si' hsi' => h j' (List.mem_cons_of_mem j hj') si' hsi'

theorem reachesFree_false_emptySlot {t : Table} {fuel b : Nat}
    (hr : reachesFree t fuel b = false) : emptySlotIn t b = none := by
  cases fuel with
  | zero =>
    rw [reachesFree_zero] at hr
    cases hes : emptySlotIn t b with
    | none => rfl
    | some j => rw [hes] at hr; cases hr
  | succ f =>
    rw [reachesFree_succ, Bool.or_eq_false_iff] at hr
    cases hes : emptySlotIn t b with
    | none => rfl
    | some j => rw [hes] at hr; cases hr.1

theorem findPathFrom_eq_none_of_reachesFree_false {t : Table} :
    ∀ fuel b, reachesFree t fuel b = false → findPathFrom t fuel b = none := by
  intro fuel
  induction fuel with
  | zero =>
    intro b hr
    rw [findPathFrom_zero, reachesFree_false_emptySlot hr]
    rfl
  | succ f ih =>
    intro b hr
    have hes := reachesFree_false_emptySlot hr
    rw [reachesFree_succ, Bool.or_eq_false_iff] at hr
    have hany := hr.2
    rw [List.any_eq_false] at hany
    rw [findPathFrom_succ, hes]
    simp only
    refine pathScan_eq_none ?_
    intro j hj si hsi
    refine ih _ ?_
    have := hany j hj
    rw [hsi] at this
    simpa using this

/-- C2: when an insert reaches the displacement engine (no duplicate of the
key present) and no free slot is reachable within the configured depth bound
from either candidate bucket, the insert returns the table-full error, the
table state is unchanged, and therefore every previously inserted key still
yields its data from lookup after the failed insert. -/
theorem C2_table_full_state_unchanged (t : Table) (k d : Nat)
    (hkr : keyRef t k = none)
    (h1 : reachesFree t t.cfg.depth (t.cfg.prim k) = false)
    (h2 : reachesFree t t.cfg.depth (t.cfg.altB k) = false) :
    (insert t k d).1 = t ∧ (insert t k d).2 = Res.full ∧
      ∀ k', lookup (insert t k d).1 k' = lookup t k' := by
  have hes1 : emptySlotIn t (t.cfg.prim k) = none := reachesFree_false_emptySlot h1
  have hes2 : emptySlotIn t (t.cfg.altB k) = none := reachesFree_false_emptySlot h2
  have hp1 := findPathFrom_eq_none_of_reachesFree_false t.cfg.depth _ h1
  have hp2 := findPathFrom_eq_none_of_reachesFree_false t.cfg.depth _ h2
  have hres : insert t k d = (t, Res.full) := by
    unfold insert
    rw [hkr]
    cases hfl : t.freeList with
    | nil => rfl
    | cons ni rest =>
      simp only
      rw [hes1, hes2, hp1, hp2]
  rw [hres]
  exact ⟨rfl, rfl, fun k' => rfl⟩

theorem inv_reachExactlyOne {t : Table} (ht : Inv t) : reachExactlyOne t := by
  intro i hi k d hst
  obtain ⟨b, j, hj, hc, hbj⟩ := ht.liveRef i hi k d hst
  refine ⟨(b, j), ⟨hj, hc, hbj⟩, ?_⟩
  rintro ⟨b', j'⟩ ⟨hj', hc', hbj'⟩
  have := ht.refInj b' (cand_lt hc') j' hj' b (cand_lt hc) j hj
    (t.cfg.sigOf k) (t.cfg.sigOf k) i hbj' hbj
  rw [Prod.mk.injEq]
  exact this

theorem applyMovesRev_suffix {t : Table} {p q : List Move} {t' : Table}
    (hq : q.IsSuffix p) (happ : applyMovesRev t p = some t') :
    ∃ tq, applyMovesRev t q = some tq := by
  obtain ⟨r, rfl⟩ := hq
  induction r generalizing t' with
  | nil => exact ⟨t', happ⟩
  | cons m r ih =>
    rw [List.cons_append] at happ
    unfold applyMovesRev at happ
    cases hr : applyMovesRev t (r ++ q) with
    | none => rw [hr] at happ; cases happ
    | some t1 => exact ih hr

/-- C3: during a cuckoo displacement applied in reverse order (from the free
slot backward), after each individual move — that is, in the state produced
by every suffix of the path — every live key is still reachable from exactly
one of its two candidate buckets; no intermediate state leaves a key
unreachable from both. -/
theorem C3_intermediate_states_reachable {t : Table} (ht : Inv t)
    {p q : List Move} {tq : Table} (hq : q.IsSuffix p)
    (happ : (applyMovesRev t p).isSome = true)
    (htq : applyMovesRev t q = some tq) : reachExactlyOne tq := by
  exact inv_reachExactlyOne (applyMovesRev_inv ht htq)

/-! ## Duplicate policy (C7) -/

/-- C7: inserting a key that is already present behaves according to the
table's configured duplicate policy — with update semantics the insert
succeeds and the key's data becomes the new value (all other keys
unchanged); without it the insert returns the duplicate-key error and the
table is completely unchanged.  The outcome is a function of the table's
configuration, so it is the same for every duplicate insert on that table. -/
theorem C7_duplicate_policy {t : Table} (ht : Inv t) {k d0 : Nat} (d' : Nat)
    (hpresent : absFind t k = some d0) :
    (t.cfg.dupUpdate = true →
      isOk (insert t k d').2 = true ∧ lookup (insert t k d').1 k = some d' ∧
      ∀ k', k' ≠ k → lookup (insert t k d').1 k' = lookup t k') ∧
    (t.cfg.dupUpdate = false → insert t k d' = (t, Res.dup)) := by
  obtain ⟨i, hic, hst⟩ := absFind_eq_some hpresent
  cases hkr : keyRef t k with
  | none =>
    obtain ⟨b, j, hj, hc, hbj⟩ := ht.liveRef i hic k d0 hst
    exact absurd ⟨hbj, d0, hst⟩ (keyRef_eq_none hkr b hc j hj i)
  | some bji =>
    obtain ⟨b, j, i'⟩ := bji
    constructor
    · intro hdu
      have hins : insert t k d' = (t.setS i' (some (k, d')), Res.ok i') := by
        unfold insert
        rw [hkr]
        simp only
        rw [if_pos hdu]
      obtain ⟨hI, habs, hother⟩ := update_spec ht hkr (d := d')
      rw [hins]
      refine ⟨rfl, ?_, ?_⟩
      · rw [lookup_eq_absFind hI k]
        exact habs
      · intro k' hk'
        rw [lookup_eq_absFind hI k', lookup_eq_absFind ht k']
        exact hother k' hk'
    · intro hdu
      unfold insert
      rw [hkr]
      simp only
      rw [if_neg (by rw [hdu]; exact Bool.false_ne_true)]

/-! ## Deletion and deferred reclamation (C5) -/

theorem insert_deferred (t : Table) (k d : Nat) :
    (insert t k d).1.deferred = t.deferred := by
  unfold insert
  cases hkr : keyRef t k with
  | some bji =>
    obtain ⟨b, j, i⟩ := bji
    simp only
    by_cases hdu : t.cfg.dupUpdate = true
    · rw [if_pos hdu]
      rfl
    · rw [if_neg hdu]
  | none =>
    cases hfl : t.freeList with
    | nil => rfl
    | cons ni rest =>
      simp only
      cases hes1 : emptySlotIn t (t.cfg.prim k) with
      | some j => exact place_deferred t _ j ni k d rest
      | none =>
        cases hes2 : emptySlotIn t (t.cfg.altB k) with
        | some j => exact place_deferred t _ j ni k d rest
        | none =>
          cases hp1 : findPathFrom t t.cfg.depth (t.cfg.prim k) with
          | some pjf =>
            obtain ⟨p, jf⟩ := pjf
            simp only
            cases happ : applyMovesRev t p with
            | some t1 =>
              simp only
              by_cases hcond : t1.buckets (t.cfg.prim k) jf = none ∧ jf < t.cfg.slots
              · rw [if_pos hcond]
                show (place t1 (t.cfg.prim k) jf ni k d rest).deferred = t.deferred
                rw [place_deferred]
                exact (applyMovesRev_frame happ).2.2.2
              · rw [if_neg hcond]
            | none => rfl
          | none =>
            cases hp2 : findPathFrom t t.cfg.depth (t.cfg.altB k) with
            | some pjf =>
              obtain ⟨p, jf⟩ := pjf
              simp only
              cases happ : applyMovesRev t p with
              | some t1 =>
                simp only
                by_cases hcond : t1.buckets (t.cfg.altB k) jf = none ∧ jf < t.cfg.slots
                · rw [if_pos hcond]
                  show (place t1 (t.cfg.altB k) jf ni k d rest).deferred = t.deferred
                  rw [place_deferred]
                  exact (applyMovesRev_frame happ).2.2.2
                · rw [if_neg hcond]
              | none => rfl
            | none => rfl

theorem delete_deferred_mem (t : Table) (k : Nat) {i : Nat} (h : i ∈ t.deferred) :
    i ∈ (delete t k).1.deferred := by
  unfold delete
  cases hkr : keyRef t k with
  | none => exact h
  | some bji =>
    obtain ⟨b, j, i'⟩ := bji
    simp only
    by_cases hcc : t.cfg.concurrent = true
    · rw [if_pos hcc]
      exact List.mem_append_left _ h
    · rw [if_neg hcc]
      exact h

theorem runOps_deferred_mem (t : Table) (ops : List Op) {i : Nat}
    (h : i ∈ t.deferred) : i ∈ (runOps t ops).1.deferred := by
  induction ops generalizing t with
  | nil => exact h
  | cons o os ih =>
    show i ∈ (runOps (step t o).1 os).1.deferred
    refine ih _ ?_
    cases o with
    | ins k d =>
      show i ∈ (insert t k d).1.deferred
      rw [insert_deferred]
      exact h
    | del k => exact delete_deferred_mem t k h

/-- C5: after a successful delete of key `k` (whose entry sat at bucket `b`,
slot `j`, key-slot `i`), lookup of `k` reports not-found.  Under concurrent
mode the freed key-slot index is handed to the deferred-reclamation staging
area, and across any further sequence of insert and delete operations (with
no reclamation) it never enters the free list and its key-slot stays empty —
so no subsequent insert can hand out `k`'s old slot or return its old data.
Under non-concurrent mode the index is returned to the free-list tail
immediately. -/
theorem C5_delete_defers_reclamation {t : Table} (ht : Inv t) {k b j i : Nat}
    (hkr : keyRef t k = some (b, j, i)) :
    (delete t k).2 = Res.ok i ∧
    lookup (delete t k).1 k = none ∧
    (t.cfg.concurrent = true →
      i ∈ (delete t k).1.deferred ∧
      ∀ ops : List Op,
        i ∈ (runOps (delete t k).1 ops).1.deferred ∧
        i ∉ (runOps (delete t k).1 ops).1.freeList ∧
        (runOps (delete t k).1 ops).1.store i = none) ∧
    (t.cfg.concurrent = false → i ∈ (delete t k).1.freeList) := by
  obtain ⟨hIdel, habs⟩ := delete_step ht k
  have hres : (delete t k).2 = Res.ok i := by
    unfold delete
    rw [hkr]
    simp only
    by_cases hcc : t.cfg.concurrent = true
    · rw [if_pos hcc]
    · rw [if_neg hcc]
  have hic : i < t.cfg.cap := by
    obtain ⟨hc, hj, hbj, d0, hst⟩ := keyRef_eq_some hkr
    exact (ht.refOk b (cand_lt hc) j hj _ i hbj).1
  refine ⟨hres, ?_, ?_, ?_⟩
  · rw [lookup_eq_absFind hIdel k, habs k, hres]
    show (if k = k then none else absFind t k) = none
    rw [if_pos rfl]
  · intro hcc
    have hmem : i ∈ (delete t k).1.deferred := by
      unfold delete
      rw [hkr]
      simp only
      rw [if_pos hcc]
      show i ∈ _ ++ [i]
      exact List.mem_append_right _ (List.mem_singleton.2 rfl)
    refine ⟨hmem, ?_⟩
    intro ops
    have hmem' : i ∈ (runOps (delete t k).1 ops).1.deferred :=
      runOps_deferred_mem _ ops hmem
    have hIops : Inv (runOps (delete t k).1 ops).1 := (runOps_spec hIdel ops).1
    refine ⟨hmem', ?_, (hIops.defOk i hmem').2⟩
    intro hfl
    have hdisj := List.nodup_append.1 hIops.nodupFD
    exact hdisj.2.2 hfl hmem'
  · intro hcc
    unfold delete
    rw [hkr]
    simp only
    rw [if_neg (by rw [hcc]; exact Bool.false_ne_true)]
    show i ∈ _ ++ [i]
    exact List.mem_append_right _ (List.mem_singleton.2 rfl)

theorem slinv_init (c0 : Nat → Nat) : SLInv (SLInit c0) := by
  refine ⟨?_, ?_, ?_, ?_, ?_, ?_⟩
  · intro w p h
    rcases h with h | h | h <;> cases h
  · intro w p h
    cases h
  · intro p _
    rfl
  · intro r p v1 h
    cases h
  · intro r p v1 c h
    cases h
  · intro r p v1 c h
    cases h

theorem slinv_step {s s' : SL} (hs : SLInv s) (hstep : SLStep s s') : SLInv s' := by
  cases hstep with
  | acquire w p hw hp =>
    refine ⟨?_, ?_, ?_, hs.snapBound, hs.readBound, hs.readStable⟩
    · intro w' p' ha
      have ha' : (if w' = w then WPhase.holding p else s.wr w') = .holding p' ∨
          (if w' = w then WPhase.holding p else s.wr w') = .inCrit p' ∨
          (if w' = w then WPhase.holding p else s.wr w') = .finished p' := ha
      show (if p' = p then some w else s.owner p') = some w'
      by_cases hww : w' = w
      · subst hww
        rw [if_pos rfl] at ha'
        rcases ha' with h | h | h <;> cases h
        rw [if_pos rfl]
      · rw [if_neg hww] at ha'
        have hown := hs.ownerOf w' p' ha'
        by_cases hpp : p' = p
        · subst hpp
          rw [hown] at hp
          cases hp
        · rw [if_neg hpp]
          exact hown
    · intro w' p' h
      have h' : (if w' = w then WPhase.holding p else s.wr w') = .inCrit p' := h
      by_cases hww : w' = w
      · rw [if_pos hww] at h'
        cases h'
      · rw [if_neg hww] at h'
        exact hs.critOdd w' p' h'
    · intro p' hAll
      refine hs.stableEven p' ?_
      intro w' hw'
      have hA : (if w' = w then WPhase.holding p else s.wr w') ≠ .inCrit p' := hAll w'
      by_cases hww : w' = w
      · subst hww
        rw [hw] at hw'
        cases hw'
      · rw [if_neg hww] at hA
        exact hA hw'
  | beginW w p hw =>
    have hnone : ∀ w', s.wr w' ≠ .inCrit p := by
      intro w' hw'
      have h1 := hs.ownerOf w p (Or.inl hw)
      have h2 := hs.ownerOf w' p (Or.inr (Or.inl hw'))
      rw [h1] at h2
      cases h2
      rw [hw] at hw'
      cases hw'
    have heven : s.ver p % 2 = 0 := hs.stableEven p hnone
    refine ⟨?_, ?_, ?_, ?_, ?_, ?_⟩
    · intro w' p' ha
      have ha' : (if w' = w then WPhase.inCrit p else s.wr w') = .holding p' ∨
          (if w' = w then WPhase.inCrit p else s.wr w') = .inCrit p' ∨
          (if w' = w then WPhase.inCrit p else s.wr w') = .finished p' := ha
      show s.owner p' = some w'
      by_cases hww : w' = w
      · rw [if_pos hww] at ha'
        rcases ha' with h | h | h <;> cases h
        rw [hww]
        exact hs.ownerOf w p (Or.inl hw)
      · rw [if_neg hww] at ha'
        exact hs.ownerOf w' p' ha'
    · intro w' p' h
      have h' : (if w' = w then WPhase.inCrit p else s.wr w') = .inCrit p' := h
      show (if p' = p then s.ver p + 1 else s.ver p') % 2 = 1
      by_cases hww : w' = w
      · rw [if_pos hww] at h'
        cases h'
        rw [if_pos rfl]
        omega
      · rw [if_neg hww] at h'
        by_cases hpp : p' = p
        · subst hpp
          exact absurd h' (hnone w')
        · rw [if_neg hpp]
          exact hs.critOdd w' p' h'
    · intro p' hAll
      show (if p' = p then s.ver p + 1 else s.ver p') % 2 = 0
      by_cases hpp : p' = p
      · subst hpp
        exfalso
        refine hAll w ?_
        show (if w = w then WPhase.inCrit p' else s.wr w) = .inCrit p'
        rw [if_pos rfl]
      · rw [if_neg hpp]
        refine hs.stableEven p' ?_
        intro w' hw'
        have hA : (if w' = w then WPhase.inCrit p else s.wr w') ≠ .inCrit p' := hAll w'
        by_cases hww : w' = w
        · subst hww
          rw [hw] at hw'
          cases hw'
        · rw [if_neg hww] at hA
          exact hA hw'
    · intro r p' v1 h
      have hb := hs.snapBound r p' v1 h
      show v1 ≤ if p' = p then s.ver p + 1 else s.ver p'
      by_cases hpp : p' = p
      · subst hpp
        rw [if_pos rfl]
        exact Nat.le_succ_of_le hb
      · rw [if_neg hpp]
        exact hb
    · intro r p' v1 c h
      have hb := hs.readBound r p' v1 c h
      show v1 ≤ if p' = p then s.ver p + 1 else s.ver p'
      by_cases hpp : p' = p
      · subst hpp
        rw [if_pos rfl]
        exact Nat.le_succ_of_le hb
      · rw [if_neg hpp]
        exact hb
    · intro r p' v1 c h hv he
      have hv' : (if p' = p then s.ver p + 1 else s.ver p') = v1 := hv
      show c = s.content p'
      by_cases hpp : p' = p
      · subst hpp
        rw [if_pos rfl] at hv'
        have hb := hs.readBound r p' v1 c h
        omega
      · rw [if_neg hpp] at hv'
        exact hs.readStable r p' v1 c h hv' he
  | mutate w p c' hw =>
    have hodd := hs.critOdd w p hw
    refine ⟨hs.ownerOf, hs.critOdd, hs.stableEven, hs.snapBound, hs.readBound, ?_⟩
    intro r p' v1 c h hv he
    show c = if p' = p then c' else s.content p'
    by_cases hpp : p' = p
    · subst hpp
      exfalso
      have hv' : s.ver p' = v1 := hv
      rw [hv', he] at hodd
      cases hodd
    · rw [if_neg hpp]
      exact hs.readStable r p' v1 c h hv he
  | endW w p hw =>
    have hodd := hs.critOdd w p hw
    have huniq : ∀ w', s.wr w' = .inCrit p → w' = w := by
      intro w' hw'
      have h1 := hs.ownerOf w p (Or.inr (Or.inl hw))
      have h2 := hs.ownerOf w' p (Or.inr (Or.inl hw'))
      rw [h1] at h2
      cases h2
      rfl
    refine ⟨?_, ?_, ?_, ?_, ?_, ?_⟩
    · intro w' p' ha
      have ha' : (if w' = w then WPhase.finished p else s.wr w') = .holding p' ∨
          (if w' = w then WPhase.finished p else s.wr w') = .inCrit p' ∨
          (if w' = w then WPhase.finished p else s.wr w') = .finished p' := ha
      show s.owner p' = some w'
      by_cases hww : w' = w
      · rw [if_pos hww] at ha'
        rcases ha' with h | h | h <;> cases h
        rw [hww]
        exact hs.ownerOf w p (Or.inr (Or.inl hw))
      · rw [if_neg hww] at ha'
        exact hs.ownerOf w' p' ha'
    · intro w' p' h
      have h' : (if w' = w then WPhase.finished p else s.wr w') = .inCrit p' := h
      show (if p' = p then s.ver p + 1 else s.ver p') % 2 = 1
      by_cases hww : w' = w
      · rw [if_pos hww] at h'
        cases h'
      · rw [if_neg hww] at h'
        by_cases hpp : p' = p
        · subst hpp
          exact absurd (huniq w' h') hww
        · rw [if_neg hpp]
          exact hs.critOdd w' p' h'
    · intro p' hAll
      show (if p' = p then s.ver p + 1 else s.ver p') % 2 = 0
      by_cases hpp : p' = p
      · subst hpp
        rw [if_pos rfl]
        omega
      · rw [if_neg hpp]
        refine hs.stableEven p' ?_
        intro w' hw'
        have hA : (if w' = w then WPhase.finished p else s.wr w') ≠ .inCrit p' := hAll w'
        by_cases hww : w' = w
        · subst hww
          rw [hw] at hw'
          cases hw'
          exact hpp rfl
        · rw [if_neg hww] at hA
          exact hA hw'
    · intro r p' v1 h
      have hb := hs.snapBound r p' v1 h
      show v1 ≤ if p' = p then s.ver p + 1 else s.ver p'
      by_cases hpp : p' = p
      · subst hpp
        rw [if_pos rfl]
        exact Nat.le_succ_of_le hb
      · rw [if_neg hpp]
        exact hb
    · intro r p' v1 c h
      have hb := hs.readBound r p' v1 c h
      show v1 ≤ if p' = p then s.ver p + 1 else s.ver p'
      by_cases hpp : p' = p
      · subst hpp
        rw [if_pos rfl]
        exact Nat.le_succ_of_le hb
      · rw [if_neg hpp]
        exact hb
    · intro r p' v1 c h hv he
      have hv' : (if p' = p then s.ver p + 1 else s.ver p') = v1 := hv
      show c = s.content p'
      by_cases hpp : p' = p
      · subst hpp
        rw [if_pos rfl] at hv'
        have hb := hs.readBound r p' v1 c h
        omega
      · rw [if_neg hpp] at hv'
        exact hs.readStable r p' v1 c h hv' he
  | release w p hw =>
    refine ⟨?_, ?_, ?_, hs.snapBound, hs.readBound, hs.readStable⟩
    · intro w' p' ha
      have ha' : (if w' = w then WPhase.idle else s.wr w') = .holding p' ∨
          (if w' = w then WPhase.idle else s.wr w') = .inCrit p' ∨
          (if w' = w then WPhase.idle else s.wr w') = .finished p' := ha
      show (if p' = p then none else s.owner p') = some w'
      by_cases hww : w' = w
      · subst hww
        rw [if_pos rfl] at ha'
        rcases ha' with h | h | h <;> cases h
      · rw [if_neg hww] at ha'
        have hown := hs.ownerOf w' p' ha'
        by_cases hpp : p' = p
        · subst hpp
          have h1 := hs.ownerOf w p' (Or.inr (Or.inr hw))
          rw [h1] at hown
          cases hown
          exact absurd rfl hww
        · rw [if_neg hpp]
          exact hown
    · intro w' p' h
      have h' : (if w' = w then WPhase.idle else s.wr w') = .inCrit p' := h
      by_cases hww : w' = w
      · rw [if_pos hww] at h'
        cases h'
      · rw [if_neg hww] at h'
        exact hs.critOdd w' p' h'
    · intro p' hAll
      refine hs.stableEven p' ?_
      intro w' hw'
      have hA : (if w' = w then WPhase.idle else s.wr w') ≠ .inCrit p' := hAll w'
      by_cases hww : w' = w
      · subst hww
        rw [hw] at hw'
        cases hw'
      · rw [if_neg hww] at hA
        exact hA hw'
  | rbegin r p hr =>
    refine ⟨hs.ownerOf, hs.critOdd, hs.stableEven, ?_, ?_, ?_⟩
    · intro r' p' v1 h
      have h' : (if r' = r then RPhase.rsnap p (s.ver p) else s.rd r') =
          .rsnap p' v1 := h
      by_cases hrr : r' = r
      · rw [if_pos hrr] at h'
        cases h'
        exact Nat.le_refl _
      · rw [if_neg hrr] at h'
        exact hs.snapBound r' p' v1 h'
    · intro r' p' v1 c h
      have h' : (if r' = r then RPhase.rsnap p (s.ver p) else s.rd r') =
          .rread p' v1 c := h
      by_cases hrr : r' = r
      · rw [if_pos hrr] at h'
        cases h'
      · rw [if_neg hrr] at h'
        exact hs.readBound r' p' v1 c h'
    · intro r' p' v1 c h hv he
      have h' : (if r' = r then RPhase.rsnap p (s.ver p) else s.rd r') =
          .rread p' v1 c := h
      by_cases hrr : r' = r
      · rw [if_pos hrr] at h'
        cases h'
      · rw [if_neg hrr] at h'
        exact hs.readStable r' p' v1 c h' hv he
  | rscan r p v1 hr =>
    refine ⟨hs.ownerOf, hs.critOdd, hs.stableEven, ?_, ?_, ?_⟩
    · intro r' p' v1' h
      have h' : (if r' = r then RPhase.rread p v1 (s.content p) else s.rd r') =
          .rsnap p' v1' := h
      by_cases hrr : r' = r
      · rw [if_pos hrr] at h'
        cases h'
      · rw [if_neg hrr] at h'
        exact hs.snapBound r' p' v1' h'
    · intro r' p' v1' c h
      have h' : (if r' = r then RPhase.rread p v1 (s.content p) else s.rd r') =
          .rread p' v1' c := h
      by_cases hrr : r' = r
      · rw [if_pos hrr] at h'
        cases h'
        exact hs.snapBound r p v1 hr
      · rw [if_neg hrr] at h'
        exact hs.readBound r' p' v1' c h'
    · intro r' p' v1' c h hv he
      have h' : (if r' = r then RPhase.rread p v1 (s.content p) else s.rd r') =
          .rread p' v1' c := h
      by_cases hrr : r' = r
      · rw [if_pos hrr] at h'
        cases h'
        rfl
      · rw [if_neg hrr] at h'
        exact hs.readStable r' p' v1' c h' hv he
  | rcommit r p v1 c hr hv he =>
    refine ⟨hs.ownerOf, hs.critOdd, hs.stableEven, ?_, ?_, ?_⟩
    · intro r' p' v1' h
      have h' : (if r' = r then RPhase.rdone p c else s.rd r') = .rsnap p' v1' := h
      by_cases hrr : r' = r
      · rw [if_pos hrr] at h'
        cases h'
      · rw [if_neg hrr] at h'
        exact hs.snapBound r' p' v1' h'
    · intro r' p' v1' c' h
      have h' : (if r' = r then RPhase.rdone p c else s.rd r') = .rread p' v1' c' := h
      by_cases hrr : r' = r
      · rw [if_pos hrr] at h'
        cases h'
      · rw [if_neg hrr] at h'
        exact hs.readBound r' p' v1' c' h'
    · intro r' p' v1' c' h hv' he'
      have h' : (if r' = r then RPhase.rdone p c else s.rd r') = .rread p' v1' c' := h
      by_cases hrr : r' = r
      · rw [if_pos hrr] at h'
        cases h'
      · rw [if_neg hrr] at h'
        exact hs.readStable r' p' v1' c' h' hv' he'
  | rdiscard r p v1 c hr hnv =>
    refine ⟨hs.ownerOf, hs.critOdd, hs.stableEven, ?_, ?_, ?_⟩
    · intro r' p' v1' h
      have h' : (if r' = r then RPhase.ridle else s.rd r') = .rsnap p' v1' := h
      by_cases hrr : r' = r
      · rw [if_pos hrr] at h'
        cases h'
      · rw [if_neg hrr] at h'
        exact hs.snapBound r' p' v1' h'
    · intro r' p' v1' c' h
      have h' : (if r' = r then RPhase.ridle else s.rd r') = .rread p' v1' c' := h
      by_cases hrr : r' = r
      · rw [if_pos hrr] at h'
        cases h'
      · rw [if_neg hrr] at h'
        exact hs.readBound r' p' v1' c' h'
    · intro r' p' v1' c' h hv' he'
      have h' : (if r' = r then RPhase.ridle else s.rd r') = .rread p' v1' c' := h
      by_cases hrr : r' = r
      · rw [if_pos hrr] at h'
        cases h'
      · rw [if_neg hrr] at h'
        exact hs.readStable r' p' v1' c' h' hv' he'

theorem slinv_reach {c0 : Nat → Nat} {s : SL} (h : SLReach c0 s) : SLInv s := by
  induction h with
  | refl => exact slinv_init c0
  | tail _ hstep ih => exact slinv_step ih hstep

/-- C6: in every reachable state of the sequence-lock protocol, (1) at most
one writer is active on any bucket pair; (2) a reader whose re-checked
version equals its snapshot and is even holds exactly the current, stable
contents — it never acts on torn (odd-version, in-progress) contents; and
(3) a reader whose re-check fails discards the scan and returns to idle to
retry (the commit step is only enabled on an unchanged even version, by the
step relation). -/
theorem C6_seqlock_protocol (c0 : Nat → Nat) (s : SL) (h : SLReach c0 s) :
    (∀ p w1 w2, writerActive s w1 p → writerActive s w2 p → w1 = w2) ∧
    (∀ r p v1 c, s.rd r = .rread p v1 c → s.ver p = v1 → v1 % 2 = 0 →
      c = s.content p) ∧
    (∀ r p v1 c, s.rd r = .rread p v1 c → ¬(s.ver p = v1 ∧ v1 % 2 = 0) →
      SLStep s { s with rd := fun r' => if r' = r then RPhase.ridle else s.rd r' }) := by
  have hs := slinv_reach h
  refine ⟨?_, hs.readStable, ?_⟩
  · intro p w1 w2 h1 h2
    have e1 := hs.ownerOf w1 p h1
    have e2 := hs.ownerOf w2 p h2
    rw [e1] at e2
    cases e2
    rfl
  · intro r p v1 c hr hnv
    exact SLStep.rdiscard s r p v1 c hr hnv

theorem slW_reach : SLReach (fun _ => 7) slW3 :=
  @Relation.ReflTransGen.tail SL SLStep slW0 slW2 slW3
    (@Relation.ReflTransGen.tail SL SLStep slW0 slW1 slW2
      (@Relation.ReflTransGen.tail SL SLStep slW0 slW0 slW1
        Relation.ReflTransGen.refl
        (SLStep.rbegin slW0 0 1 rfl))
      (SLStep.rscan slW1 0 1 0 rfl))
    (SLStep.acquire slW2 0 0 rfl rfl)

/-- Witness for C6: on the concrete trace, the reader's scanned value at an
unchanged even version is exactly the stable contents of pair 1. -/
theorem C6_witness :
    slW3.rd 0 = RPhase.rread 1 0 7 ∧ slW3.ver 1 = 0 ∧
      (7 : Nat) = slW3.content 1 := by
  refine ⟨rfl, rfl, ?_⟩
  exact (C6_seqlock_protocol (fun _ => 7) slW3 slW_reach).2.1 0 1 0 7 rfl rfl rfl

/-- Witness for C2: a full one-slot table with no reachable free slot —
inserting key 1 returns table-full, leaves the table unchanged, and key 0 is
still found. -/
theorem C2_witness :
    keyRef tFull 1 = none ∧
      reachesFree tFull tFull.cfg.depth (tFull.cfg.prim 1) = false ∧
      reachesFree tFull tFull.cfg.depth (tFull.cfg.altB 1) = false ∧
      (insert tFull 1 7).1 = tFull ∧ (insert tFull 1 7).2 = Res.full ∧
      lookup (insert tFull 1 7).1 0 = lookup tFull 0 := by
  have h := C2_table_full_state_unchanged tFull 1 7 (by decide) (by decide) (by decide)
  exact ⟨by decide, by decide, by decide, h.1, h.2.1, h.2.2 0⟩

theorem inv_tDisp : Inv tDisp := (runOps_spec (inv_mkTable cfgTwo) [Op.ins 5 50]).1

/-- Witness for C3: the concrete displacement move of key 5 from bucket 1 to
bucket 0 applies, and both the intermediate and final states keep every live
key reachable from exactly one candidate bucket. -/
theorem C3_witness :
    (applyMovesRev tDisp [moveW]).isSome = true ∧
      applyMovesRev tDisp [moveW] = some tDispAfter ∧
      reachExactlyOne tDispAfter := by
  refine ⟨by decide, rfl, ?_⟩
  exact C3_intermediate_states_reachable inv_tDisp (List.suffix_refl [moveW])
    (by decide) rfl

theorem inv_tCon : Inv tCon := (runOps_spec (inv_mkTable cfgCon) [Op.ins 0 9]).1

/-- Witness for C5: deleting key 0 in concurrent mode reports success on
key-slot 0, lookup then misses, the freed index sits in the deferred list,
and after a further insert it is still deferred and not on the free list. -/
theorem C5_witness :
    keyRef tCon 0 = some (0, 0, 0) ∧
      (delete tCon 0).2 = Res.ok 0 ∧
      lookup (delete tCon 0).1 0 = none ∧
      0 ∈ (runOps (delete tCon 0).1 [Op.ins 3 33]).1.deferred ∧
      0 ∉ (runOps (delete tCon 0).1 [Op.ins 3 33]).1.freeList := by
  have h := C5_delete_defers_reclamation inv_tCon (by decide : keyRef tCon 0 = some (0, 0, 0))
  have hc := h.2.2.1 rfl
  exact ⟨by decide, h.1, h.2.1, (hc.2 [Op.ins 3 33]).1, (hc.2 [Op.ins 3 33]).2.1⟩

theorem inv_tUpd : Inv tUpd := (runOps_spec (inv_mkTable cfgUpd) [Op.ins 1 11]).1

/-- Witness for C7: on a duplicate-update table holding key 1, re-inserting
key 1 with new data succeeds and lookup returns the new data. -/
theorem C7_witness :
    absFind tUpd 1 = some 11 ∧
      isOk (insert tUpd 1 99).2 = true ∧
      lookup (insert tUpd 1 99).1 1 = some 99 := by
  have h := (C7_duplicate_policy inv_tUpd 99
    (by decide : absFind tUpd 1 = some 11)).1 rfl
  exact ⟨by decide, h.1, h.2.1⟩

theorem setNth_length {α : Type} (l : List α) (n : Nat) (v : α) :
    (setNth l n v).length = l.length := by
  induction l generalizing n with
  | nil => rfl
  | cons x xs ih =>
    cases n with
    | zero => rfl
    | succ n => simp [setNth, ih]

theorem setNth_get?_eq {α : Type} {l : List α} {n : Nat} (v : α)
    (h : n < l.length) : (setNth l n v).get? n = some v := by
  induction l generalizing n with
  | nil => cases h
  | cons x xs ih =>
    cases n with
    | zero => rfl
    | succ n => exact ih (Nat.lt_of_succ_lt_succ h)

theorem setNth_get?_ne {α : Type} (l : List α) {m n : Nat} (v : α)
    (h : m ≠ n) : (setNth l n v).get? m = l.get? m := by
  induction l generalizing m n with
  | nil => rfl
  | cons x xs ih =>
    cases n with
    | zero =>
      cases m with
      | zero => exact absurd rfl h
      | succ m => rfl
    | succ n =>
      cases m with
      | zero => rfl
      | succ m => exact ih fun he => h (congrArg Nat.succ he)

theorem setNth_take {α : Type} {l : List α} {n : Nat} (v : α)
    (h : n < l.length) :
    (setNth l n v).take (n + 1) = l.take n ++ [v] := by
  induction l generalizing n with
  | nil => cases h
  | cons x xs ih =>
    cases n with
    | zero => rfl
    | succ n =>
      show x :: (setNth xs n v).take (n + 1) = x :: (xs.take n ++ [v])
      rw [ih (Nat.lt_of_succ_lt_succ h)]

theorem freeLoop_fst (l : List (Option Mbuf)) :
    (freeLoop l).1 = List.replicate l.length none := by
  induction l with
  | nil => rfl
  | cons e es ih =>
    cases e with
    | some m =>
      show none :: (freeLoop es).1 = none :: List.replicate es.length none
      rw [ih]
    | none =>
      show none :: (freeLoop es).1 = none :: List.replicate es.length none
      rw [ih]

theorem freeLoop_replicate (n : Nat) :
    freeLoop (List.replicate n none) = (List.replicate n none, []) := by
  induction n with
  | zero => rfl
  | succ n ih =>
    show (none :: (freeLoop (List.replicate n none)).1,
      (freeLoop (List.replicate n none)).2) = _
    rw [ih]
    rfl

/-- C9: `xsc_rxq_elts_free` is idempotent and total on its observable state:
with a NULL `elts` pointer it changes nothing; with a non-NULL array every
entry ends up NULL; and a second consecutive call frees nothing and leaves
the same all-NULL state. -/
theorem C9_elts_free_idempotent (st : RxqFreeState) :
    (st.elts = none → xsc_rxq_elts_free st = st) ∧
    (∀ l, st.elts = some l →
      (xsc_rxq_elts_free st).elts = some (List.replicate l.length none)) ∧
    xsc_rxq_elts_free (xsc_rxq_elts_free st) = xsc_rxq_elts_free st := by
  refine ⟨?_, ?_, ?_⟩
  · intro h
    unfold xsc_rxq_elts_free
    rw [h]
  · intro l h
    unfold xsc_rxq_elts_free
    rw [h]
    show some (freeLoop l).1 = some (List.replicate l.length none)
    rw [freeLoop_fst]
  · cases h : st.elts with
    | none =>
      have h1 : xsc_rxq_elts_free st = st := by
        unfold xsc_rxq_elts_free
        rw [h]
      rw [h1, h1]
    | some l =>
      have h1 : xsc_rxq_elts_free st =
          { elts := some (freeLoop l).1, freed := st.freed ++ (freeLoop l).2 } := by
        unfold xsc_rxq_elts_free
        rw [h]
      rw [h1]
      have h2 : xsc_rxq_elts_free
          { elts := some (freeLoop l).1, freed := st.freed ++ (freeLoop l).2 } =
          { elts := some (freeLoop (freeLoop l).1).1,
            freed := (st.freed ++ (freeLoop l).2) ++ (freeLoop (freeLoop l).1).2 } := rfl
      rw [h2, freeLoop_fst l, freeLoop_replicate]
      simp

/-- Witness for C9 on a concrete two-entry array. -/
theorem C9_witness :
    (xsc_rxq_elts_free ⟨some [some ⟨0, 1, 2, 3, 4, 5⟩, none], []⟩).elts =
        some [none, none] ∧
      xsc_rxq_elts_free (xsc_rxq_elts_free ⟨some [some ⟨0, 1, 2, 3, 4, 5⟩, none], []⟩) =
        xsc_rxq_elts_free ⟨some [some ⟨0, 1, 2, 3, 4, 5⟩, none], []⟩ := by
  have h := C9_elts_free_idempotent ⟨some [some ⟨0, 1, 2, 3, 4, 5⟩, none], []⟩
  exact ⟨h.2.1 [some ⟨0, 1, 2, 3, 4, 5⟩, none] rfl, h.2.2⟩

/-! ## C8: behaviour of `xsc_rxq_elts_alloc` -/

theorem get?_some_lt {α : Type} {l : List α} {i : Nat} {a : α}
    (h : l.get? i = some a) : i < l.length := by
  induction l generalizing i with
  | nil => cases h
  | cons x xs ih =>
    cases i with
    | zero => exact Nat.succ_pos _
    | succ i => exact Nat.succ_lt_succ (ih h)

theorem get?_none_of_le {α : Type} {l : List α} {i : Nat}
    (h : l.length ≤ i) : l.get? i = none := by
  induction l generalizing i with
  | nil => rfl
  | cons x xs ih =>
    cases i with
    | zero => cases h
    | succ i => exact ih (Nat.le_of_succ_le_succ h)

theorem le_of_get?_none {α : Type} {l : List α} {i : Nat}
    (h : l.get? i = none) : l.length ≤ i := by
  induction l generalizing i with
  | nil => exact Nat.zero_le _
  | cons x xs ih =>
    cases i with
    | zero => cases h
    | succ i => exact Nat.succ_le_succ (ih h)

theorem drop_cons_of_get? {α : Type} {l : List α} {i : Nat} {a : α}
    (h : l.get? i = some a) : l.drop i = a :: l.drop (i + 1) := by
  induction l generalizing i with
  | nil => cases h
  | cons x xs ih =>
    cases i with
    | zero => cases h; rfl
    | succ i => exact ih h

theorem setNth_drop {α : Type} (l : List α) (i : Nat) (v : α) :
    (setNth l i v).drop (i + 1) = l.drop (i + 1) := by
  induction l generalizing i with
  | nil => rfl
  | cons x xs ih =>
    cases i with
    | zero => rfl
    | succ i => exact ih i

theorem errFree_spec : ∀ cnt i st,
    (∀ j, j < i ∨ i + cnt ≤ j → (errFree cnt i st).elts.get? j = st.elts.get? j) ∧
    (∀ j, i ≤ j → j < i + cnt → j < st.elts.length →
      (errFree cnt i st).elts.get? j = some none) ∧
    (errFree cnt i st).freed =
      st.freed ++ ((st.elts.drop i).take cnt).filterMap id := by
  intro cnt
  induction cnt with
  | zero =>
    intro i st
    refine ⟨fun j _ => rfl, fun j h1 h2 _ => absurd h2 (by omega), ?_⟩
    simp [errFree]
  | succ cnt ih =>
    intro i st
    show (∀ j, j < i ∨ i + (cnt + 1) ≤ j →
        (errFree (cnt + 1) i st).elts.get? j = st.elts.get? j) ∧ _ ∧ _
    cases hg : st.elts.get? i with
    | some e =>
      have hilt : i < st.elts.length := get?_some_lt hg
      cases e with
      | some m =>
        have hstep : errFree (cnt + 1) i st = errFree cnt (i + 1)
            { st with freed := st.freed ++ [m], elts := setNth st.elts i none } := by
          simp only [errFree, hg]
        obtain ⟨hA, hB, hC⟩ := ih (i + 1)
          { st with freed := st.freed ++ [m], elts := setNth st.elts i none }
        rw [hstep]
        refine ⟨?_, ?_, ?_⟩
        · intro j hj
          rw [hA j (by omega)]
          exact setNth_get?_ne st.elts none (by omega)
        · intro j h1 h2 h3
          by_cases hij : j = i
          · subst hij
            rw [hA j (Or.inl (by omega))]
            exact setNth_get?_eq none hilt
          · refine hB j (by omega) (by omega) ?_
            show j < (setNth st.elts i none).length
            rw [setNth_length]
            exact h3
        · rw [hC]
          show (st.freed ++ [m]) ++
              (((setNth st.elts i none).drop (i + 1)).take cnt).filterMap id = _
          rw [setNth_drop, drop_cons_of_get? hg]
          show (st.freed ++ [m]) ++ ((st.elts.drop (i + 1)).take cnt).filterMap id =
            st.freed ++ ((some m :: (st.elts.drop (i + 1)).take cnt).filterMap id)
          rw [List.filterMap_cons]
          simp
      | none =>
        have hstep : errFree (cnt + 1) i st = errFree cnt (i + 1)
            { st with elts := setNth st.elts i none } := by
          simp only [errFree, hg]
        obtain ⟨hA, hB, hC⟩ := ih (i + 1) { st with elts := setNth st.elts i none }
        rw [hstep]
        refine ⟨?_, ?_, ?_⟩
        · intro j hj
          rw [hA j (by omega)]
          exact setNth_get?_ne st.elts none (by omega)
        · intro j h1 h2 h3
          by_cases hij : j = i
          · subst hij
            rw [hA j (Or.inl (by omega))]
            exact setNth_get?_eq none hilt
          · refine hB j (by omega) (by omega) ?_
            show j < (setNth st.elts i none).length
            rw [setNth_length]
            exact h3
        · rw [hC]
          show st.freed ++
              (((setNth st.elts i none).drop (i + 1)).take cnt).filterMap id = _
          rw [setNth_drop, drop_cons_of_get? hg]
          show st.freed ++ ((st.elts.drop (i + 1)).take cnt).filterMap id =
            st.freed ++ ((none :: (st.elts.drop (i + 1)).take cnt).filterMap id)
          rw [List.filterMap_cons]
          rfl
    | none =>
      have hle : st.elts.length ≤ i := le_of_get?_none hg
      have hstep : errFree (cnt + 1) i st = errFree cnt (i + 1) st := by
        simp only [errFree, hg]
      obtain ⟨hA, hB, hC⟩ := ih (i + 1) st
      rw [hstep]
      refine ⟨?_, ?_, ?_⟩
      · intro j hj
        exact hA j (by omega)
      · intro j h1 h2 h3
        exact absurd h3 (by omega)
      · rw [hC]
        have hd1 : st.elts.drop i = [] := List.drop_eq_nil_of_le hle
        have hd2 : st.elts.drop (i + 1) = [] := List.drop_eq_nil_of_le (by omega)
        rw [hd1, hd2]
        simp

theorem allocLoop_spec : ∀ cnt i st, st.elts.length = i + cnt →
    (cnt ≤ st.pool.length →
      (allocLoop cnt i st).2 = 0 ∧
      (allocLoop cnt i st).1.freed = st.freed ∧
      (allocLoop cnt i st).1.pool = st.pool.drop cnt ∧
      ∀ j, (allocLoop cnt i st).1.elts.get? j =
        if i ≤ j ∧ j < i + cnt then
          (st.pool.get? (j - i)).map fun m => some (setFields st.dataRoom st.portId m)
        else st.elts.get? j) ∧
    (st.pool.length < cnt →
      (allocLoop cnt i st).2 = -ENOMEM ∧
      (∀ j, j < i + st.pool.length → j < st.elts.length →
        (allocLoop cnt i st).1.elts.get? j = some none) ∧
      (∀ j, i + st.pool.length ≤ j →
        (allocLoop cnt i st).1.elts.get? j = st.elts.get? j) ∧
      (allocLoop cnt i st).1.freed =
        st.freed ++ (st.elts.take i).filterMap id ++
          st.pool.map (setFields st.dataRoom st.portId)) := by
  intro cnt
  induction cnt with
  | zero =>
    intro i st hlen
    refine ⟨?_, ?_⟩
    · intro _
      refine ⟨rfl, rfl, by simp [allocLoop], ?_⟩
      intro j
      have hni : ¬(i ≤ j ∧ j < i + 0) := by omega
      rw [if_neg hni]
      rfl
    · intro h
      exact absurd h (by omega)
  | succ cnt ih =>
    intro i st hlen
    cases hp : st.pool with
    | nil =>
      have hstep : allocLoop (cnt + 1) i st = (errFree i 0 st, -ENOMEM) := by
        simp only [allocLoop, hp]
      obtain ⟨hA, hB, hC⟩ := errFree_spec i 0 st
      refine ⟨?_, ?_⟩
      · intro h
        exact absurd h (by simp)
      · intro _
        rw [hstep]
        refine ⟨rfl, ?_, ?_, ?_⟩
        · intro j h1 h2
          simp only [List.length_nil] at h1
          exact hB j (Nat.zero_le j) (by omega) h2
        · intro j h1
          simp only [List.length_nil] at h1
          exact hA j (Or.inr (by omega))
        · show (errFree i 0 st).freed = _
          rw [hC]
          simp
    | cons m rest =>
      have hstep : allocLoop (cnt + 1) i st = allocLoop cnt (i + 1)
          { st with
            pool := rest
            elts := setNth st.elts i (some (setFields st.dataRoom st.portId m)) } := by
        simp only [allocLoop, hp]
      have hilt : i < st.elts.length := by omega
      have hlen' : (setNth st.elts i
          (some (setFields st.dataRoom st.portId m))).length = (i + 1) + cnt := by
        rw [setNth_length]
        omega
      obtain ⟨hS, hF⟩ := ih (i + 1)
        { st with
          pool := rest
          elts := setNth st.elts i (some (setFields st.dataRoom st.portId m)) } hlen'
      refine ⟨?_, ?_⟩
      · -- success
        intro h
        have hcle : cnt ≤ rest.length := by
          simp only [List.length_cons] at h
          omega
        obtain ⟨h0, hfr, hpl, hget⟩ := hS hcle
        rw [hstep]
        refine ⟨h0, hfr, ?_, ?_⟩
        · rw [hpl]
          rfl
        · intro j
          rw [hget j]
          by_cases hin : i ≤ j ∧ j < i + (cnt + 1)
          · rw [if_pos hin]
            by_cases hji : j = i
            · have hni : ¬(i + 1 ≤ j ∧ j < i + 1 + cnt) := by omega
              rw [if_neg hni, hji, setNth_get?_eq _ hilt, Nat.sub_self]
              rfl
            · have hyi : i + 1 ≤ j ∧ j < i + 1 + cnt := by omega
              rw [if_pos hyi]
              have hsub : j - i = (j - (i + 1)) + 1 := by omega
              rw [hsub]
              rfl
          · have hni : ¬(i + 1 ≤ j ∧ j < i + 1 + cnt) := by omega
            rw [if_neg hin, if_neg hni]
            exact setNth_get?_ne st.elts _ (by omega)
      · -- failure
        intro h
        have hcgt : rest.length < cnt := by
          simp only [List.length_cons] at h
          omega
        obtain ⟨h0, hN, hU, hfr⟩ := hF hcgt
        have hN2 : ∀ j, j < i + 1 + rest.length →
            j < (setNth st.elts i (some (setFields st.dataRoom st.portId m))).length →
            (allocLoop cnt (i + 1)
              { st with
                pool := rest
                elts := setNth st.elts i
                  (some (setFields st.dataRoom st.portId m)) }).1.elts.get? j =
              some none := hN
        have hU2 : ∀ j, i + 1 + rest.length ≤ j →
            (allocLoop cnt (i + 1)
              { st with
                pool := rest
                elts := setNth st.elts i
                  (some (setFields st.dataRoom st.portId m)) }).1.elts.get? j =
              (setNth st.elts i (some (setFields st.dataRoom st.portId m))).get? j := hU
        rw [hstep]
        refine ⟨h0, ?_, ?_, ?_⟩
        · intro j h1 h2
          simp only [List.length_cons] at h1
          refine hN2 j (by omega) ?_
          rw [setNth_length]
          exact h2
        · intro j h1
          simp only [List.length_cons] at h1
          rw [hU2 j (by omega)]
          exact setNth_get?_ne st.elts _ (by omega)
        · rw [hfr]
          show st.freed ++ ((setNth st.elts i
              (some (setFields st.dataRoom st.portId m))).take (i + 1)).filterMap id ++
              rest.map (setFields st.dataRoom st.portId) = _
          rw [setNth_take _ hilt, List.filterMap_append]
          show st.freed ++ ((st.elts.take i).filterMap id ++
              [some (setFields st.dataRoom st.portId m)].filterMap id) ++
              rest.map (setFields st.dataRoom st.portId) = _
          have hone : [some (setFields st.dataRoom st.portId m)].filterMap id =
              [setFields st.dataRoom st.portId m] := rfl
          rw [hone]
          show _ = st.freed ++ (st.elts.take i).filterMap id ++
            (setFields st.dataRoom st.portId m :: rest.map (setFields st.dataRoom st.portId))
          simp [List.append_assoc]

/-- C8 counterexample: on failure the error path only clears the entries
written before the failure index, so entries at and beyond it keep their old
values — the claim's "every entry of elts set to NULL" is false. -/
theorem C8_counterexample : ¬ rxqAllocClaim rxCex := by
  unfold rxqAllocClaim
  decide

/-- C8 amended: `xsc_rxq_elts_alloc` either succeeds (pool large enough),
returning 0 with every entry a freshly allocated mbuf with port, `nb_segs`,
`data_len` and `pkt_len` set; or fails with `-ENOMEM`, having freed every
mbuf it allocated and set every entry it populated — those before the
failure index — to NULL, while entries at and beyond the failure index are
left unmodified. -/
theorem C8_alloc_failure_cleanup (st : RxqState) :
    (st.elts.length ≤ st.pool.length →
      (xsc_rxq_elts_alloc st).2 = 0 ∧
      ∀ j, j < st.elts.length →
        (xsc_rxq_elts_alloc st).1.elts.get? j =
          (st.pool.get? j).map fun m => some (setFields st.dataRoom st.portId m)) ∧
    (st.pool.length < st.elts.length →
      (xsc_rxq_elts_alloc st).2 = -ENOMEM ∧
      (∀ j, j < st.pool.length → (xsc_rxq_elts_alloc st).1.elts.get? j = some none) ∧
      (∀ j, st.pool.length ≤ j →
        (xsc_rxq_elts_alloc st).1.elts.get? j = st.elts.get? j) ∧
      (xsc_rxq_elts_alloc st).1.freed =
        st.freed ++ st.pool.map (setFields st.dataRoom st.portId)) := by
  unfold xsc_rxq_elts_alloc
  obtain ⟨hS, hF⟩ := allocLoop_spec st.elts.length 0 st (by omega)
  constructor
  · intro h
    obtain ⟨h0, _, _, hget⟩ := hS h
    refine ⟨h0, ?_⟩
    intro j hj
    have := hget j
    rw [if_pos ⟨Nat.zero_le j, by omega⟩] at this
    rw [this, Nat.sub_zero]
  · intro h
    obtain ⟨h0, hN, hU, hfr⟩ := hF h
    refine ⟨h0, ?_, ?_, ?_⟩
    · intro j hj
      exact hN j (by omega) (by omega)
    · intro j hj
      exact hU j (by omega)
    · rw [hfr]
      simp

/-- Witness for C8 (amended): success fills entry 0 from the pool head with
the initialised fields. -/
theorem C8_witness :
    (xsc_rxq_elts_alloc rxOk).2 = 0 ∧
      (xsc_rxq_elts_alloc rxOk).1.elts.get? 0 =
        (rxOk.pool.get? 0).map fun m => some (setFields rxOk.dataRoom rxOk.portId m) := by
  have h := (C8_alloc_failure_cleanup rxOk).1 (by decide)
  exact ⟨h.1, h.2 0 (by decide)⟩

theorem bumpAll_count (tasks : List VdpaTask) (cnt : Nat → Nat) (c : Nat) :
    bumpAll tasks cnt c = cnt c + (tasks.filterMap (·.remainingCnt)).count c := by
  induction tasks generalizing cnt with
  | nil => simp [bumpAll]
  | cons t ts ih =>
    cases hrc : t.remainingCnt with
    | some c0 =>
      show bumpAll (t :: ts) cnt c = _
      have hstep : bumpAll (t :: ts) cnt =
          bumpAll ts fun c' => if c' = c0 then cnt c' + 1 else cnt c' := by
        simp only [bumpAll, hrc]
      rw [hstep, ih]
      have hfm : (t :: ts).filterMap (·.remainingCnt) =
          c0 :: ts.filterMap (·.remainingCnt) := by
        rw [List.filterMap_cons, hrc]
      rw [hfm, List.count_cons]
      by_cases hc : c = c0
      · rw [if_pos hc]
        simp [hc]
        omega
      · rw [if_neg hc]
        simp [Ne.symm hc, hc]
    | none =>
      have hstep : bumpAll (t :: ts) cnt = bumpAll ts cnt := by
        simp only [bumpAll, hrc]
      rw [hstep, ih]
      have hfm : (t :: ts).filterMap (·.remainingCnt) =
          ts.filterMap (·.remainingCnt) := by
        rw [List.filterMap_cons, hrc]
      rw [hfm]

/-- C10 counterexample: with `num = 0` the bulk enqueue returns 0, which
`mlx5_vdpa_task_add` treats as failure and returns -1 — even though the ring
can accept all zero elements, so neither branch of the claim holds. -/
theorem C10_counterexample : ¬ taskAddClaim vdpaCex 5 [] := by
  intro h
  rcases h with ⟨h0, -, -⟩ | ⟨hlt, -, -, -⟩
  · exact absurd h0 (by decide)
  · exact absurd hlt (by decide)

/-- C10 amended: `mlx5_vdpa_task_add` is all-or-nothing for every
`1 ≤ num ≤ MLX5_VDPA_TASKS_PER_DEV`: with room for all `num` elements it
enqueues exactly the `num` tasks, increments each task's non-NULL
`remaining_cnt` exactly once and returns 0; otherwise it enqueues nothing,
increments no counter and returns -1.  (For `num = 0` the call returns -1
and changes nothing, because the 0-element bulk enqueue's result 0 is
indistinguishable from failure.) -/
theorem C10_task_add_all_or_nothing (st : VdpaState) (priv : Nat)
    (rcnts : List (Option Nat)) (h1 : 1 ≤ rcnts.length)
    (h2 : rcnts.length ≤ MLX5_VDPA_TASKS_PER_DEV) :
    taskAddClaim st priv rcnts := by
  have hn0 : ¬rcnts.length = 0 := by omega
  by_cases hfree : rcnts.length ≤ st.ring.freeSpace
  · have hmain : mlx5_vdpa_task_add st priv rcnts =
        (VdpaState.mk
          (VdpaRing.mk (st.ring.freeSpace - rcnts.length)
            (st.ring.items ++
              (rcnts.map fun rc => VdpaTask.mk priv rc).take rcnts.length))
          (bumpAll (rcnts.map fun rc => VdpaTask.mk priv rc) st.counters), 0) := by
      unfold mlx5_vdpa_task_add mlx5_vdpa_c_thrd_ring_enqueue_bulk
        ringEnqueueBulkStart ringEnqueueFinish
      simp only [if_pos hfree, eq_self_iff_true, if_true, if_neg hn0]
    left
    rw [hmain]
    refine ⟨rfl, ?_, ?_⟩
    · show st.ring.items ++
        ((rcnts.map fun rc => VdpaTask.mk priv rc).take rcnts.length) = _
      have htake : (rcnts.map fun rc => VdpaTask.mk priv rc).take rcnts.length =
          rcnts.map fun rc => VdpaTask.mk priv rc := by
        rw [show rcnts.length = (rcnts.map fun rc => VdpaTask.mk priv rc).length from
          (List.length_map _ _).symm]
        exact List.take_length _
      rw [htake]
    · intro c
      show bumpAll (rcnts.map fun rc => VdpaTask.mk priv rc) st.counters c = _
      rw [bumpAll_count, List.filterMap_map]
      rfl
  · have hmain : mlx5_vdpa_task_add st priv rcnts =
        (VdpaState.mk
          (VdpaRing.mk (st.ring.freeSpace - 0)
            (st.ring.items ++ (rcnts.map fun rc => VdpaTask.mk priv rc).take 0))
          st.counters, -1) := by
      unfold mlx5_vdpa_task_add mlx5_vdpa_c_thrd_ring_enqueue_bulk
        ringEnqueueBulkStart ringEnqueueFinish
      simp only [if_neg hfree,
        if_neg (show ¬(0 = rcnts.length) from fun h => hn0 h.symm),
        eq_self_iff_true, if_true]
    right
    rw [hmain]
    refine ⟨by omega, rfl, ?_, fun c => rfl⟩
    show st.ring.items ++ ((rcnts.map fun rc => VdpaTask.mk priv rc).take 0) =
      st.ring.items
    simp

/-- Witness for C10 (amended) with two tasks, one holding counter 2. -/
theorem C10_witness :
    (1 : Nat) ≤ ([some 2, none] : List (Option Nat)).length ∧
      ([some 2, none] : List (Option Nat)).length ≤ MLX5_VDPA_TASKS_PER_DEV ∧
      taskAddClaim vdpaOk 5 [some 2, none] := by
  refine ⟨by decide, by decide, ?_⟩
  exact C10_task_add_all_or_nothing vdpaOk 5 [some 2, none] (by decide) (by decide)

end Spec2Proof
